import Mathlib

/-!
# Verification of the textbus collaborate module

This file gives a shallow embedding, in Lean, of the synchronization core in
`packages/collaborate/src/collaborate.ts` of the textbus repository, and proves
(or refutes) the specified properties of that code.

The embedding follows the TypeScript source function by function.  External
collaborators that are part of the textbus project but not of this source tree
(the `Slot`, `Selection` and registry abstractions of `@textbus/core`) and the
yjs primitives (`YText`, `YMap`, `YArray`, transactions, `UndoManager`) are
modelled from the specification of their interfaces; each such definition says
so in its doc comment.
-/

namespace Collab

/-- Primitive scalar values (JSON-like) stored in document models and used as
formatter / attribute values. -/
inductive Prim where
  | str (s : String)
  | num (n : Int)
  | bool (b : Bool)
  | null
deriving DecidableEq

/-- Transaction origin tokens.  `yDoc` is the engine's own shared document (the
local-origin token), `noRecord` is the internal untracked token
(`this.noRecord`), `manager` is the undo manager (history token), and
`remote n` stands for any other origin (a remote peer). -/
inductive Origin where
  | yDoc
  | noRecord
  | manager
  | remote (id : Nat)
deriving DecidableEq

/-! ## Local → shared batching (`listen`, the `onDocChanged` subscription)

`interface UpdateItem { record: boolean; action(): void }` and
`interface Update { record: boolean; actions: Array<() => void> }` from the
source.  Actions are opaque closures; we model them by an arbitrary type `α`. -/

/-- A pending local mutation (source `interface UpdateItem`). -/
structure UpdateItem (α : Type) where
  record : Bool
  action : α
deriving DecidableEq

/-- A group of pending actions that is flushed as one transaction
(source `interface Update`). -/
structure Update (α : Type) where
  record : Bool
  actions : List α
deriving DecidableEq

/-- The inner loop of the `onDocChanged` subscription in `listen()`: the
current (open) group `cur` absorbs subsequent items with the same `record`
flag; an item with a different flag closes the group and opens a new one. -/
def buildUpdatesGo {α : Type} (cur : Update α) : List (UpdateItem α) → List (Update α)
  | [] => [cur]
  | i :: rest =>
    if cur.record = i.record then
      buildUpdatesGo ⟨cur.record, cur.actions ++ [i.action]⟩ rest
    else
      cur :: buildUpdatesGo ⟨i.record, [i.action]⟩ rest

/-- The grouping pass of the `onDocChanged` subscription over
`this.updateRemoteActions`: on the first item a fresh group holding that
item's action is opened (in the source the fresh group starts empty and the
`update.record === item.record` test immediately pushes the action). -/
def buildUpdates {α : Type} : List (UpdateItem α) → List (Update α)
  | [] => []
  | i :: rest => buildUpdatesGo ⟨i.record, [i.action]⟩ rest

/-- One shared-document transaction: an origin token and the actions executed
inside `yDoc.transact`. -/
structure Txn (α : Type) where
  origin : Origin
  actions : List α
deriving DecidableEq

/-- The transaction loop of the `onDocChanged` subscription:
`this.yDoc.transact(() => item.actions.forEach(fn => fn()), item.record ? this.yDoc : this.noRecord)`
for each group, in order. -/
def flushTransactions {α : Type} (pending : List (UpdateItem α)) : List (Txn α) :=
  (buildUpdates pending).map (fun u => ⟨if u.record then Origin.yDoc else Origin.noRecord, u.actions⟩)

/-- Observable result of one flush: the transactions in order, then the
`localChangesAppliedEvent.next()` notification. -/
inductive FlushEvent (α : Type) where
  | transact (t : Txn α)
  | localChangesApplied
deriving DecidableEq

/-- The full body of the `onDocChanged` subscription: apply every group as a
transaction, then fire the applied notification. -/
def flushEvents {α : Type} (pending : List (UpdateItem α)) : List (FlushEvent α) :=
  (flushTransactions pending).map FlushEvent.transact ++ [FlushEvent.localChangesApplied]

/-! ## `runLocalUpdate` / `runRemoteUpdate` -/

/-- The engine state touched by `runLocalUpdate` and `runRemoteUpdate`:
the reentrancy flag `updateFromRemote`, the pending queue
`updateRemoteActions`, and the local document (abstract, type `σ`). -/
structure EngineSt (α σ : Type) where
  updateFromRemote : Bool
  updateRemoteActions : List (UpdateItem α)
  localDoc : σ
deriving DecidableEq

/-- Source `runLocalUpdate(fn, record = true)`: if `updateFromRemote` is set
the call returns at once (the mutation is discarded); otherwise the action is
queued with the given `record` flag. -/
def runLocalUpdate {α σ : Type} (st : EngineSt α σ) (fn : α) (record : Bool) :
    EngineSt α σ :=
  if st.updateFromRemote then st
  else { st with updateRemoteActions := st.updateRemoteActions ++ [⟨record, fn⟩] }

/-- Every call site of `runLocalUpdate` in the source (`syncSlot`, `syncArray`,
`syncObject`) passes no second argument, so `record` is always the default
`true`. -/
def runLocalUpdateDefault {α σ : Type} (st : EngineSt α σ) (fn : α) : EngineSt α σ :=
  runLocalUpdate st fn true

/-- Source `runRemoteUpdate(tr, fn)`: events whose transaction origin is the
engine's own `yDoc` are ignored; otherwise `fn` (the replay, here a state
transformer) runs with `updateFromRemote` set, scoped by
`scheduler.historyApplyTransact` when the origin is the undo manager and by
`scheduler.remoteUpdateTransact` otherwise, and the flag is cleared after. -/
def runRemoteUpdate {α σ : Type} (origin : Origin) (st : EngineSt α σ)
    (fn : EngineSt α σ → EngineSt α σ) : EngineSt α σ :=
  if origin = Origin.yDoc then st
  else
    let st1 := fn { st with updateFromRemote := true }
    { st1 with updateFromRemote := false }

/-! ## History manager state (`historyItems`, `index`, the undo manager)

The yjs `UndoManager` and its stacks are external; they are modelled from the
specification: an undoable edit pushes one entry on the native undo stack and
then fires the `stack-item-added` handler of `listen()`. -/

/-- Event type of a yjs `stack-item-added` / `stack-item-popped` event. -/
inductive StackEvType where
  | undo
  | redo
deriving DecidableEq

/-- History state: the native undo/redo stacks of the `UndoManager`
(entries of abstract type `E`) and the engine's parallel cursor-history list
`historyItems` with its `index`.  A JavaScript array can be extended by a
`length` assignment, which creates empty holes; a hole is modelled as
`none`. -/
structure HistorySt (E S : Type) where
  undoStack : List E
  redoStack : List E
  historyItems : List (Option S)
  index : Int
deriving DecidableEq

/-- JavaScript `arr.length = n` assignment on an array: truncates when `n` is
smaller than the current length and extends with empty holes when larger.
Modelled from the spec: JavaScript array semantics. -/
def setLength {β : Type} (l : List (Option β)) (n : Nat) : List (Option β) :=
  if n ≤ l.length then l.take n
  else l ++ List.replicate (n - l.length) none

/-- The `stack-item-added` handler of `listen()` (together with the native
stack push that precedes it).  `etype` is `event.type`, `origin` is
`event.origin`; for an `undo`-type event whose origin is not the manager the
handler truncates `historyItems` to `index`, pushes the snapshot pair `snap`,
and increments `index`; a manager-origin `undo` event only increments `index`;
a `redo`-type event decrements it.  When the native undo stack exceeds
`stackSize`, the oldest `historyItems` entry and the oldest native entry are
shifted off (the source does not adjust `index` here). -/
def stackItemAdded {E S : Type} (stackSize : Nat) (st : HistorySt E S)
    (etype : StackEvType) (origin : Origin) (snap : S) (entry : E) : HistorySt E S :=
  let undoStack := if etype = StackEvType.undo then st.undoStack ++ [entry] else st.undoStack
  let redoStack := if etype = StackEvType.undo then st.redoStack else st.redoStack ++ [entry]
  let itemsIdx :=
    match etype with
    | StackEvType.undo =>
      if origin = Origin.manager then (st.historyItems, st.index + 1)
      else (setLength st.historyItems st.index.toNat ++ [some snap], st.index + 1)
    | StackEvType.redo => (st.historyItems, st.index - 1)
  if stackSize < undoStack.length then
    { undoStack := undoStack.drop 1, redoStack := redoStack,
      historyItems := itemsIdx.1.drop 1, index := itemsIdx.2 }
  else
    { undoStack := undoStack, redoStack := redoStack,
      historyItems := itemsIdx.1, index := itemsIdx.2 }

/-- One undoable local edit: the undo manager pushes a native entry and fires
`stack-item-added` with type `undo` and the local-origin token. -/
def undoableEdit {E S : Type} (stackSize : Nat) (st : HistorySt E S)
    (snap : S) (entry : E) : HistorySt E S :=
  stackItemAdded stackSize st StackEvType.undo Origin.yDoc snap entry

/-- Source `clear()`: `pop()` the last cursor-history entry, keep it as the
only entry when it is truthy (a hole or an empty list yields `undefined`,
which is falsy), set `index` accordingly, and clear the undo manager's
stacks. -/
def clear {E S : Type} (st : HistorySt E S) : HistorySt E S :=
  match st.historyItems.getLast? with
  | some (some x) => { undoStack := [], redoStack := [], historyItems := [some x], index := 1 }
  | _ => { undoStack := [], redoStack := [], historyItems := [], index := 0 }

/-! ## Remote replay into a slot (`syncSlot`, the `syncRemote` observer)

The textbus `Slot` is external to this source tree; for the replay we model
the parts its interface exposes: a content sequence of units (characters with
formats, or embedded components), a cursor `index`, and the operations
`retain`, `insert`, `delete` used by `syncRemote`.  Components materialized
for embeds are represented by an opaque tag. -/

/-- One unit of replay-slot content: a character with its formats, or an
embedded component (opaque tag).  Modelled from the spec: a slot is an
"ordered sequence of content units (characters or embedded component
references) with per-range formatting". -/
inductive RUnit where
  | ch (c : Char) (fmts : List (String × Prim))
  | emb (tag : Nat)
deriving DecidableEq

/-- Replay view of a local slot: content units plus the cursor index.
Modelled from the spec (`Slot` of `@textbus/core`). -/
structure RSlot where
  content : List RUnit
  index : Nat
deriving DecidableEq

/-- Modelled from the spec: `Slot.retain(offset)` moves the cursor to the
given offset, clamped to the content length. -/
def RSlot.retainTo (s : RSlot) (offset : Nat) : RSlot :=
  { s with index := min offset s.content.length }

/-- Modelled from the spec: `Slot.insert(content, formats)` inserts at the
cursor and advances the cursor past the inserted units. -/
def RSlot.insertUnits (s : RSlot) (us : List RUnit) : RSlot :=
  { content := s.content.take s.index ++ us ++ s.content.drop s.index,
    index := s.index + us.length }

/-- Modelled from the spec: `Slot.delete(count)` removes `count` units forward
from the cursor. -/
def RSlot.deleteCount (s : RSlot) (count : Nat) : RSlot :=
  { s with content := s.content.take s.index ++ s.content.drop (s.index + count) }

/-- Merge incoming formats into a unit's format set, overriding by name. -/
def mergeFmts (old new : List (String × Prim)) : List (String × Prim) :=
  old.filter (fun kv => !(new.any (fun kv2 => kv2.1 == kv.1))) ++ new

/-- Apply formats to one unit (embedded components are left unchanged). -/
def applyFmtsUnit (fmts : List (String × Prim)) : RUnit → RUnit
  | RUnit.ch c f => RUnit.ch c (mergeFmts f fmts)
  | RUnit.emb t => RUnit.emb t

/-- Modelled from the spec: `Slot.retain(offset, formats)` applies the formats
over `offset` units forward from the cursor, without moving the cursor (the
source afterwards advances the cursor explicitly). -/
def RSlot.retainFormats (s : RSlot) (n : Nat) (fmts : List (String × Prim)) : RSlot :=
  { s with content :=
      s.content.take s.index
        ++ ((s.content.drop s.index).take n).map (applyFmtsUnit fmts)
        ++ (s.content.drop s.index).drop n }

/-- The selection collaborator's state: each endpoint is a slot (identified by
a numeric id, standing for object identity) and an offset.  Offsets are `Int`
because the source's arithmetic can drive them negative.  Modelled from the
spec (`Selection` of `@textbus/core`). -/
structure SelSt where
  anchorSlotId : Option Nat
  anchorOffset : Option Int
  focusSlotId : Option Nat
  focusOffset : Option Int
deriving DecidableEq

/-- Modelled from the spec: `Selection.isSelected` holds when both endpoints
are set. -/
def SelSt.isSelected (sel : SelSt) : Bool :=
  sel.anchorSlotId.isSome && sel.anchorOffset.isSome
    && sel.focusSlotId.isSome && sel.focusOffset.isSome

/-- Modelled from the spec: `Selection.startOffset` is the offset of the first
endpoint in document order; for a selection whose endpoints are in the same
slot that is the smaller of the two offsets (for endpoints in different slots
we take the anchor, a convention that no theorem below relies on). -/
def SelSt.startOffset (sel : SelSt) : Option Int :=
  match sel.anchorSlotId, sel.focusSlotId, sel.anchorOffset, sel.focusOffset with
  | some a, some f, some ao, some fo => some (if a = f then min ao fo else ao)
  | _, _, ao, _ => ao

/-- Modelled from the spec: `Selection.setAnchor(slot, offset)`. -/
def SelSt.setAnchor (sel : SelSt) (slotId : Nat) (offset : Int) : SelSt :=
  { sel with anchorSlotId := some slotId, anchorOffset := some offset }

/-- Modelled from the spec: `Selection.setFocus(slot, offset)`. -/
def SelSt.setFocus (sel : SelSt) (slotId : Nat) (offset : Int) : SelSt :=
  { sel with focusSlotId := some slotId, focusOffset := some offset }

/-- One entry of the `ev.delta` of a shared-text event, as consumed by the
`syncRemote` observer of `syncSlot` (embed payloads are opaque tags here; the
recursive materialization of embedded components is treated in the tree
materializer section). -/
inductive TextDelta where
  | retain (n : Nat) (attributes : Option (List (String × Prim)))
  | insertText (s : String) (attributes : Option (List (String × Prim)))
  | insertEmbed (tag : Nat) (attributes : Option (List (String × Prim)))
  | deleteN (n : Nat)
deriving DecidableEq

/-- Source `remoteFormatsToLocal(registry, attrs)`: keep, in order, exactly
the attribute entries whose name resolves to a registered formatter. -/
def remoteFormatsToLocal (formatters : List String)
    (attrs : Option (List (String × Prim))) : List (String × Prim) :=
  match attrs with
  | none => []
  | some l => l.filter (fun kv => formatters.contains kv.1)

/-- Joint state of the replay: the slot being written and the live
selection. -/
structure SyncSt where
  slot : RSlot
  sel : SelSt
deriving DecidableEq

/-- One iteration of the `ev.delta.forEach` loop in `syncRemote`
(`syncSlot`, lines 515-557 of the source): retain moves the slot cursor
(applying any registered formats first), insert writes at the cursor and then
shifts any selection endpoint of this slot that lies strictly after the insert
position forward by the inserted length, delete removes at the cursor and then
shifts any endpoint at or after the delete position backward — the anchor is
set to `selection.startOffset - delete` and the focus to
`selection.focusOffset - delete`, with no clamping.  Selection adjustment only
happens when a selection exists and the transaction origin is not the undo
manager. -/
def applyTextDeltaAction (formatters : List String) (origin : Origin)
    (slotId : Nat) (st : SyncSt) : TextDelta → SyncSt
  | TextDelta.retain n attributes =>
    match attributes with
    | some a =>
      let formats := remoteFormatsToLocal formatters (some a)
      let slot1 := if formats.length ≠ 0 then st.slot.retainFormats n formats else st.slot
      ⟨slot1.retainTo (slot1.index + n), st.sel⟩
    | none => ⟨st.slot.retainTo n, st.sel⟩
  | TextDelta.insertText s attributes =>
    let index := st.slot.index
    let length : Int := s.length
    let slot := st.slot.insertUnits (s.data.map
      (fun c => RUnit.ch c (remoteFormatsToLocal formatters attributes)))
    let sel := st.sel
    let sel :=
      if sel.isSelected && !(origin = Origin.manager) then
        let sel1 :=
          if sel.anchorSlotId = some slotId && sel.anchorOffset.getD 0 > (index : Int) then
            sel.setAnchor slotId (sel.anchorOffset.getD 0 + length)
          else sel
        if sel1.focusSlotId = some slotId && sel1.focusOffset.getD 0 > (index : Int) then
          sel1.setFocus slotId (sel1.focusOffset.getD 0 + length)
        else sel1
      else sel
    ⟨slot, sel⟩
  | TextDelta.insertEmbed tag attributes =>
    let index := st.slot.index
    let length : Int := 1
    let _ := attributes
    let slot := st.slot.insertUnits [RUnit.emb tag]
    let sel := st.sel
    let sel :=
      if sel.isSelected && !(origin = Origin.manager) then
        let sel1 :=
          if sel.anchorSlotId = some slotId && sel.anchorOffset.getD 0 > (index : Int) then
            sel.setAnchor slotId (sel.anchorOffset.getD 0 + length)
          else sel
        if sel1.focusSlotId = some slotId && sel1.focusOffset.getD 0 > (index : Int) then
          sel1.setFocus slotId (sel1.focusOffset.getD 0 + length)
        else sel1
      else sel
    ⟨slot, sel⟩
  | TextDelta.deleteN n =>
    let index := st.slot.index
    let slot := st.slot.deleteCount n
    let sel := st.sel
    let sel :=
      if sel.isSelected && !(origin = Origin.manager) then
        let sel1 :=
          if sel.anchorSlotId = some slotId && sel.anchorOffset.getD 0 ≥ (index : Int) then
            sel.setAnchor slotId (sel.startOffset.getD 0 - (n : Int))
          else sel
        if sel1.focusSlotId = some slotId && sel1.focusOffset.getD 0 ≥ (index : Int) then
          sel1.setFocus slotId (sel1.focusOffset.getD 0 - (n : Int))
        else sel1
      else sel
    ⟨slot, sel⟩

/-- The delta part of the `syncRemote` observer wrapped in `runRemoteUpdate`:
events originating from the engine's own `yDoc` are ignored; otherwise the
slot cursor is reset (`localSlot.retain(0)`) and the event delta is replayed
in order.  (The attribute part — `ev.keysChanged` — touches neither content
nor selection and is modelled with the tree materializer.) -/
def syncSlotRemoteDelta (formatters : List String) (origin : Origin)
    (slotId : Nat) (st : SyncSt) (delta : List TextDelta) : SyncSt :=
  if origin = Origin.yDoc then st
  else
    let st1 : SyncSt := ⟨st.slot.retainTo 0, st.sel⟩
    delta.foldl (applyTextDeltaAction formatters origin slotId) st1

/-! ## Tree materializer: data model

Local documents (textbus side): map models, array models, slots and
components; modelled from the spec of `@textbus/core` (`MapModel`,
`ArrayModel`, `Slot`, `Component`).  A local slot is represented by its delta
(`Slot.toDelta()`): a list of runs, each a string or an embedded component
paired with its format set; slot-level attributes are name/value pairs and the
schema is an opaque list of content-type codes. -/

mutual
/-- A local model value, as dispatched on by
`createSharedModelByLocalModel`. -/
inductive LVal where
  | lmap (entries : List (String × LVal))
  | larr (items : List LVal)
  | lslot (s : LSlot)
  | lprim (p : Prim)
/-- A local slot: schema, slot-level attributes (attribute name ↦ value, in
insertion order), and content runs (its delta). -/
inductive LSlot where
  | mk (schema : List Nat) (attrs : List (String × Prim)) (content : List LRun)
/-- One run of local slot content: a string or an embedded component, with the
formats of the run (formatter name ↦ value). -/
inductive LRun where
  | text (s : String) (fmts : List (String × Prim))
  | embed (c : LComp) (fmts : List (String × Prim))
/-- A local component: a factory name and a state map. -/
inductive LComp where
  | mk (name : String) (state : List (String × LVal))
end

/-- Schema of a local slot. -/
def LSlot.schema : LSlot → List Nat
  | LSlot.mk schema _ _ => schema

/-- Slot-level attributes of a local slot. -/
def LSlot.attrs : LSlot → List (String × Prim)
  | LSlot.mk _ attrs _ => attrs

/-- Content runs of a local slot. -/
def LSlot.content : LSlot → List LRun
  | LSlot.mk _ _ content => content

/-- Name of a local component. -/
def LComp.name : LComp → String
  | LComp.mk name _ => name

/-- State map of a local component. -/
def LComp.state : LComp → List (String × LVal)
  | LComp.mk _ state => state

/-- Value of a shared-text attribute: a primitive (slot-level attributes) or
the reserved schema descriptor stored under `__schema__`. -/
inductive YAttr where
  | prim (p : Prim)
  | schema (l : List Nat)
deriving DecidableEq

mutual
/-- A shared (yjs) value, as dispatched on by
`createLocalModelBySharedByModel`. -/
inductive YVal where
  | ymap (entries : List (String × YVal))
  | yarr (items : List YVal)
  | ytext (t : YTextV)
  | yprim (p : Prim)
/-- A shared text (`YText`): its attributes and its content, one entry per
content unit. -/
inductive YTextV where
  | mk (attrs : List (String × YAttr)) (content : List YUnit)
/-- One unit of shared text content: a character or an embedded shared map,
with the formatting attributes attached to it. -/
inductive YUnit where
  | ch (c : Char) (fmts : List (String × Prim))
  | emb (m : List (String × YVal)) (fmts : List (String × Prim))
end

/-- Attributes of a shared text. -/
def YTextV.attrs : YTextV → List (String × YAttr)
  | YTextV.mk attrs _ => attrs

/-- Content units of a shared text. -/
def YTextV.content : YTextV → List YUnit
  | YTextV.mk _ content => content

/-- The registry collaborator: names of registered formatters, registered
slot attributes, and registered component factories.  Modelled from the spec
(`Registry` of `@textbus/core`). -/
structure Reg where
  formatters : List String
  attributes : List String
  factories : List String

/-- Insert units into a unit list at an offset (yjs `YText.insert` position
semantics; an offset beyond the end appends). -/
def insertYUnits (content : List YUnit) (offset : Nat) (us : List YUnit) : List YUnit :=
  content.take offset ++ us ++ content.drop offset

mutual
/-- Source `createSharedModelByLocalModel`: dispatch on the runtime variant of
the local value. -/
def createSharedModelByLocalModel : LVal → YVal
  | LVal.lmap es => YVal.ymap (createSharedMapByLocalMap es)
  | LVal.larr xs => YVal.yarr (createSharedArrayByLocalArray xs)
  | LVal.lslot s => YVal.ytext (createSharedSlotByLocalSlot s)
  | LVal.lprim p => YVal.yprim p
/-- Source `createSharedMapByLocalMap` / `syncLocalMapToSharedMap`: convert
every entry of the local map into the fresh shared map, in order. -/
def createSharedMapByLocalMap : List (String × LVal) → List (String × YVal)
  | [] => []
  | (k, v) :: rest => (k, createSharedModelByLocalModel v) :: createSharedMapByLocalMap rest
/-- Source `createSharedArrayByLocalArray`: push the conversion of every item
of the local array, in order. -/
def createSharedArrayByLocalArray : List LVal → List YVal
  | [] => []
  | v :: rest => createSharedModelByLocalModel v :: createSharedArrayByLocalArray rest
/-- Source `createSharedSlotByLocalSlot`: a fresh `YText` gets the schema
under the reserved `__schema__` attribute, then the slot's delta runs are
inserted at a running offset (strings with their format object, components via
`createSharedComponentByLocalComponent` as embeds), then the slot-level
attributes are set. -/
def createSharedSlotByLocalSlot : LSlot → YTextV
  | LSlot.mk schema attrs content =>
    YTextV.mk
      (("__schema__", YAttr.schema schema) :: attrs.map (fun kv => (kv.1, YAttr.prim kv.2)))
      (buildSharedContent content [] 0)
/-- The `localSlot.toDelta().forEach` loop of `createSharedSlotByLocalSlot`:
insert each run at the running offset (a component counts one unit, matching
`Component.length = 1`). -/
def buildSharedContent : List LRun → List YUnit → Nat → List YUnit
  | [], acc, _ => acc
  | LRun.text s f :: rest, acc, offset =>
    buildSharedContent rest
      (insertYUnits acc offset (s.data.map (fun c => YUnit.ch c f))) (offset + s.length)
  | LRun.embed c f :: rest, acc, offset =>
    buildSharedContent rest
      (insertYUnits acc offset [YUnit.emb (createSharedComponentByLocalComponent c) f]) (offset + 1)
/-- Source `createSharedComponentByLocalComponent`: a fresh shared map with
the component `name` and the converted `state` map. -/
def createSharedComponentByLocalComponent : LComp → List (String × YVal)
  | LComp.mk name state =>
    [("name", YVal.yprim (Prim.str name)), ("state", YVal.ymap (createSharedMapByLocalMap state))]
end

/-! ## Tree materializer: shared → local

Reconstruction can fail: a slot delta entry that is not an insertion raises
the `unexpected delta action` error, an unregistered component name raises the
`cannot find component factory` error, and a shared component whose `name` or
`state` field is missing or of the wrong shape crashes the source
(`badComponentShape` here). -/

/-- Errors raised by `createLocalSlotBySharedSlot` /
`createLocalComponentBySharedComponent`. -/
inductive CErr where
  | unexpectedDelta
  | unknownFactory (name : String)
  | badComponentShape
deriving DecidableEq

/-! Sizes of shared values, used as the termination measure of the
reconstruction functions. -/

mutual
def ySizeVal : YVal → Nat
  | YVal.ymap es => 1 + ySizeEntries es
  | YVal.yarr xs => 1 + ySizeArr xs
  | YVal.ytext t => 1 + ySizeText t
  | YVal.yprim _ => 1
def ySizeEntries : List (String × YVal) → Nat
  | [] => 0
  | (_, v) :: rest => 1 + ySizeVal v + ySizeEntries rest
def ySizeArr : List YVal → Nat
  | [] => 0
  | v :: rest => 1 + ySizeVal v + ySizeArr rest
def ySizeText : YTextV → Nat
  | YTextV.mk _ content => 1 + 2 * ySizeUnits content
def ySizeUnits : List YUnit → Nat
  | [] => 0
  | YUnit.ch _ _ :: rest => 1 + ySizeUnits rest
  | YUnit.emb m _ :: rest => 1 + ySizeEntries m + ySizeUnits rest
end

/-- A yjs text delta entry as returned by `YText.toDelta()` and consumed by
the loop in `createLocalSlotBySharedSlot`: an insertion of a string or of an
embedded shared map, or a non-insertion entry (retain / delete), which a delta
of well-formed document content never contains but a corrupt or foreign
document may. -/
inductive YDAction where
  | insertText (s : String) (attributes : Option (List (String × Prim)))
  | insertEmbed (m : List (String × YVal)) (attributes : Option (List (String × Prim)))
  | retainD (n : Nat)
  | deleteD (n : Nat)

/-- The attribute object attached to a delta insertion: absent when the unit
carries no formats. -/
def attrsOfFmts (f : List (String × Prim)) : Option (List (String × Prim)) :=
  if f = [] then none else some f

/-- Modelled from the spec: `YText.toDelta()` groups consecutive characters
with equal formatting attributes into one string insertion; every embed is its
own insertion. -/
def yToDelta : List YUnit → List YDAction
  | [] => []
  | YUnit.ch c f :: rest =>
    match yToDelta rest with
    | YDAction.insertText s a :: ds =>
      if a = attrsOfFmts f then YDAction.insertText (String.mk (c :: s.data)) a :: ds
      else YDAction.insertText (String.mk [c]) (attrsOfFmts f) :: YDAction.insertText s a :: ds
    | ds => YDAction.insertText (String.mk [c]) (attrsOfFmts f) :: ds
  | YUnit.emb m f :: rest => YDAction.insertEmbed m (attrsOfFmts f) :: yToDelta rest

/-- Size of a delta entry, aligned with `ySizeUnits`. -/
def ySizeDAct : YDAction → Nat
  | YDAction.insertText s _ => s.length
  | YDAction.insertEmbed m _ => 1 + ySizeEntries m
  | YDAction.retainD _ => 0
  | YDAction.deleteD _ => 0

/-- Size of a delta, one extra unit per entry so that consuming an entry
always decreases the measure. -/
def ySizeDActs : List YDAction → Nat
  | [] => 0
  | a :: rest => 1 + ySizeDAct a + ySizeDActs rest

theorem ySizeDActs_yToDelta_le (us : List YUnit) :
    ySizeDActs (yToDelta us) ≤ 2 * ySizeUnits us := by
  induction us with
  | nil => simp [yToDelta, ySizeDActs]
  | cons u rest ih =>
    cases u with
    | ch c f =>
      simp only [yToDelta]
      cases hrest : yToDelta rest with
      | nil =>
        rw [hrest] at ih
        simp [ySizeDActs, ySizeDAct, ySizeUnits, String.length] at ih ⊢
        try omega
      | cons d ds =>
        cases d with
        | insertText s a =>
          by_cases ha : a = attrsOfFmts f
          · rw [hrest] at ih
            simp only [ha, if_pos rfl, ySizeDActs, ySizeDAct, ySizeUnits, String.length] at ih ⊢
            simp only [List.length_cons]
            omega
          · rw [hrest] at ih
            simp only [if_neg ha, ySizeDActs, ySizeDAct, ySizeUnits, String.length] at ih ⊢
            simp only [List.length_cons, List.length_nil]
            omega
        | insertEmbed m a =>
          rw [hrest] at ih
          simp [ySizeDActs, ySizeDAct, ySizeUnits, String.length] at ih ⊢
          omega
        | retainD n =>
          rw [hrest] at ih
          simp [ySizeDActs, ySizeDAct, ySizeUnits, String.length] at ih ⊢
          omega
        | deleteD n =>
          rw [hrest] at ih
          simp [ySizeDActs, ySizeDAct, ySizeUnits, String.length] at ih ⊢
          omega
    | emb m f =>
      simp only [yToDelta, ySizeDActs, ySizeDAct, ySizeUnits]
      omega

/-- Association lookup on a shared map (`YMap.get`). -/
def lookupYVal (k : String) (m : List (String × YVal)) : Option YVal :=
  (m.find? (fun kv => kv.1 == k)).map Prod.snd

/-- Association lookup on the attributes of a shared text
(`YText.getAttribute`). -/
def lookupYAttr (k : String) (attrs : List (String × YAttr)) : Option YAttr :=
  (attrs.find? (fun kv => kv.1 == k)).map Prod.snd

theorem ySizeVal_lookup_le (k : String) (m : List (String × YVal)) (v : YVal)
    (h : lookupYVal k m = some v) : ySizeVal v ≤ ySizeEntries m := by
  induction m with
  | nil => simp [lookupYVal] at h
  | cons kv rest ih =>
    simp only [lookupYVal, List.find?] at h
    by_cases hk : (kv.1 == k) = true
    · rw [hk] at h
      simp at h
      subst h
      simp [ySizeEntries]
      cases kv
      simp [ySizeEntries]
      omega
    · simp only [Bool.not_eq_true] at hk
      rw [hk] at h
      have := ih h
      cases kv
      simp [ySizeEntries] at this ⊢
      omega

/-- The schema read in `createLocalSlotBySharedSlot`:
`sharedSlot.getAttribute('__schema__') || []`. -/
def schemaOfShared (yattrs : List (String × YAttr)) : List Nat :=
  match lookupYAttr "__schema__" yattrs with
  | some (YAttr.schema l) => l
  | _ => []

/-- The attribute loop of `createLocalSlotBySharedSlot`: for every key of
`sharedSlot.getAttributes()` (the reserved schema entry included) whose name
resolves to a registered attribute, set it on the local slot, in order.  Only
primitive attribute values can be carried over to a local slot. -/
def localAttrsOfShared (reg : Reg) (yattrs : List (String × YAttr)) : List (String × Prim) :=
  yattrs.filterMap (fun kv =>
    match kv.2 with
    | YAttr.prim p => if reg.attributes.contains kv.1 then some (kv.1, p) else none
    | YAttr.schema _ => none)

/-- Modelled from the spec: `Slot.insert(string, formats)` during
reconstruction appends a run at the end of the (so far sequentially built)
slot. -/
def slotInsertText (slot : LSlot) (s : String) (f : List (String × Prim)) : LSlot :=
  LSlot.mk slot.schema slot.attrs (slot.content ++ [LRun.text s f])

/-- Modelled from the spec: `Slot.insert(component, formats)` during
reconstruction appends an embed run at the end of the slot. -/
def slotInsertEmbed (slot : LSlot) (c : LComp) (f : List (String × Prim)) : LSlot :=
  LSlot.mk slot.schema slot.attrs (slot.content ++ [LRun.embed c f])

mutual
/-- Source `createLocalModelBySharedByModel`: dispatch on the runtime variant
of the shared value. -/
def createLocalModelBySharedByModel (reg : Reg) : YVal → Except CErr LVal
  | YVal.ymap es =>
    match createLocalMapBySharedMap reg es with
    | Except.ok l => Except.ok (LVal.lmap l)
    | Except.error e => Except.error e
  | YVal.yarr xs =>
    match createLocalArrayBySharedArray reg xs with
    | Except.ok l => Except.ok (LVal.larr l)
    | Except.error e => Except.error e
  | YVal.ytext t =>
    match createLocalSlotBySharedSlot reg t with
    | Except.ok s => Except.ok (LVal.lslot s)
    | Except.error e => Except.error e
  | YVal.yprim p => Except.ok (LVal.lprim p)
termination_by v => ySizeVal v
decreasing_by
  all_goals simp only [ySizeVal]
  all_goals omega

/-- Source `createLocalMapBySharedMap` / `syncSharedMapToLocalMap`: convert
every entry of the shared map, in order; the first failure aborts. -/
def createLocalMapBySharedMap (reg : Reg) :
    List (String × YVal) → Except CErr (List (String × LVal))
  | [] => Except.ok []
  | (k, v) :: rest =>
    match createLocalModelBySharedByModel reg v with
    | Except.error e => Except.error e
    | Except.ok lv =>
      match createLocalMapBySharedMap reg rest with
      | Except.error e => Except.error e
      | Except.ok lrest => Except.ok ((k, lv) :: lrest)
termination_by l => ySizeEntries l
decreasing_by
  all_goals simp only [ySizeEntries]
  all_goals omega

/-- Source `createLocalArrayBySharedArray`: convert every item of the shared
array, in order; the first failure aborts. -/
def createLocalArrayBySharedArray (reg : Reg) : List YVal → Except CErr (List LVal)
  | [] => Except.ok []
  | v :: rest =>
    match createLocalModelBySharedByModel reg v with
    | Except.error e => Except.error e
    | Except.ok lv =>
      match createLocalArrayBySharedArray reg rest with
      | Except.error e => Except.error e
      | Except.ok lrest => Except.ok (lv :: lrest)
termination_by l => ySizeArr l
decreasing_by
  all_goals simp only [ySizeArr]
  all_goals omega

/-- Source `createLocalSlotBySharedSlot`: build a fresh slot from the
`__schema__` attribute, set every registered attribute of the shared text on
it, then replay the shared text's delta; any delta entry that is not an
insertion raises the `unexpected delta action` error. -/
def createLocalSlotBySharedSlot (reg : Reg) : YTextV → Except CErr LSlot
  | YTextV.mk yattrs content =>
    applyDelta reg
      (LSlot.mk (schemaOfShared yattrs) (localAttrsOfShared reg yattrs) [])
      (yToDelta content)
termination_by t => ySizeText t
decreasing_by
  rename_i content2
  simp only [ySizeText]
  have := ySizeDActs_yToDelta_le content2
  omega

/-- The `for (const action of delta)` loop of `createLocalSlotBySharedSlot`:
a string insertion becomes `localSlot.insert(string, formats)` with the
registered formats, an embed insertion materializes the component first, and
any other entry throws `unexpected delta action`. -/
def applyDelta (reg : Reg) (slot : LSlot) : List YDAction → Except CErr LSlot
  | [] => Except.ok slot
  | YDAction.insertText s a :: rest =>
    applyDelta reg (slotInsertText slot s (remoteFormatsToLocal reg.formatters a)) rest
  | YDAction.insertEmbed m a :: rest =>
    match createLocalComponentBySharedComponent reg m with
    | Except.error e => Except.error e
    | Except.ok comp =>
      applyDelta reg (slotInsertEmbed slot comp (remoteFormatsToLocal reg.formatters a)) rest
  | YDAction.retainD _ :: _ => Except.error CErr.unexpectedDelta
  | YDAction.deleteD _ :: _ => Except.error CErr.unexpectedDelta
termination_by ds => ySizeDActs ds
decreasing_by
  all_goals simp only [ySizeDActs, ySizeDAct]
  all_goals omega

/-- Source `createLocalComponentBySharedComponent`: read `name` and `state`,
look the factory up by name (`registry.createComponentByData`; modelled from
the spec: the factory builds the component whose state map is the converted
shared state), and fail with the `cannot find component factory` error when
the name is not registered.  A shared component without a string `name` and a
map `state` crashes the source; here it returns `badComponentShape`. -/
def createLocalComponentBySharedComponent (reg : Reg) (m : List (String × YVal)) :
    Except CErr LComp :=
  match h1 : lookupYVal "name" m, h2 : lookupYVal "state" m with
  | some (YVal.yprim (Prim.str componentName)), some (YVal.ymap sharedState) =>
    if reg.factories.contains componentName then
      match createLocalMapBySharedMap reg sharedState with
      | Except.ok st => Except.ok (LComp.mk componentName st)
      | Except.error e => Except.error e
    else Except.error (CErr.unknownFactory componentName)
  | _, _ => Except.error CErr.badComponentShape
termination_by ySizeEntries m
decreasing_by
  have h3 := ySizeVal_lookup_le _ _ _ h2
  simp only [ySizeVal] at h3
  omega
end

/-! ## Local content changes replayed onto the shared text
(`syncSlot`, the `onContentChange` subscription) -/

/-- Modelled from the spec: `YText.length` counts one per content unit. -/
def YTextV.lengthY (t : YTextV) : Nat := t.content.length

/-- Modelled from the spec: `YText.insert` / `insertEmbed` put units at the
given offset. -/
def YTextV.insertAt (t : YTextV) (offset : Nat) (us : List YUnit) : YTextV :=
  YTextV.mk t.attrs (insertYUnits t.content offset us)

/-- Modelled from the spec: `YText.delete(offset, count)` removes up to
`count` units at `offset`. -/
def YTextV.deleteAt (t : YTextV) (offset count : Nat) : YTextV :=
  YTextV.mk t.attrs (t.content.take offset ++ t.content.drop (offset + count))

/-- Merge formatting attributes into one shared-text unit. -/
def applyFmtsYUnit (fmts : List (String × Prim)) : YUnit → YUnit
  | YUnit.ch c f => YUnit.ch c (mergeFmts f fmts)
  | YUnit.emb m f => YUnit.emb m (mergeFmts f fmts)

/-- Modelled from the spec: `YText.format(offset, count, formats)` merges the
formats into every unit of the range. -/
def YTextV.formatAt (t : YTextV) (offset count : Nat) (fmts : List (String × Prim)) : YTextV :=
  YTextV.mk t.attrs
    (t.content.take offset
      ++ ((t.content.drop offset).take count).map (applyFmtsYUnit fmts)
      ++ (t.content.drop offset).drop count)

/-- Modelled from the spec: `YText.setAttribute` replaces an existing
attribute in place or appends a fresh one. -/
def setAssocYAttr : List (String × YAttr) → String → YAttr → List (String × YAttr)
  | [], k, v => [(k, v)]
  | kv :: rest, k, v => if kv.1 == k then (k, v) :: rest else kv :: setAssocYAttr rest k v

/-- Modelled from the spec: `YText.setAttribute`. -/
def YTextV.setAttributeY (t : YTextV) (k : String) (v : YAttr) : YTextV :=
  YTextV.mk (setAssocYAttr t.attrs k v) t.content

/-- Modelled from the spec: `YText.removeAttribute`. -/
def YTextV.removeAttributeY (t : YTextV) (k : String) : YTextV :=
  YTextV.mk (t.attrs.filter (fun kv => !(kv.1 == k))) t.content

/-- Modelled from the spec: `Slot.emptyPlaceholder` of `@textbus/core` — the
single newline a slot shows when it has no real content (the source's own
delete branch re-inserts exactly this placeholder). -/
def emptyPlaceholder : String := "\n"

/-- The `isEmpty` test of the `contentInsert` branch:
`delta.length === 1 && delta[0].insert === Slot.emptyPlaceholder` (an embed
insertion is an object and never equals the placeholder string). -/
def deltaIsEmptyPlaceholder : List YDAction → Bool
  | [YDAction.insertText s _] => s == emptyPlaceholder
  | _ => false

/-- The `delta[0]?.attributes` read of the `delete` branch: the attributes of
the first delta entry, or none (yjs treats missing attributes and an absent
entry alike when re-inserting). -/
def deltaFirstAttrs : List YDAction → List (String × Prim)
  | YDAction.insertText _ a :: _ => a.getD []
  | YDAction.insertEmbed _ a :: _ => a.getD []
  | _ => []

/-- One action of a local slot's `onContentChange` stream, as consumed by the
handler in `syncSlot` (source lines 562-615). -/
inductive SlotAction where
  | retainA (offset : Nat) (formats : Option (List (String × Prim)))
  | contentInsertText (content : String) (formats : Option (List (String × Prim)))
  | contentInsertComp (ref : LComp) (formats : Option (List (String × Prim)))
  | deleteA (count : Nat)
  | attrSetA (name : String) (value : Prim)
  | attrDeleteA (name : String)

/-- The handler's loop state: the shared text being written and the mutable
`offset` and `length` variables of the closure. -/
structure LocalSyncSt where
  sharedSlot : YTextV
  offset : Nat
  insLength : Nat

/-- One iteration of the `onContentChange` handler of `syncSlot`: retain
either applies the registered formats (leaving `offset` untouched, as in the
source) or moves `offset`; `contentInsert` first checks whether the shared
text holds only the empty placeholder, inserts at `offset`, and if the
placeholder was alone and the insert hit offset 0 deletes the (now trailing)
placeholder; `delete` removes at `offset` and, when the shared text ends up
empty, re-inserts a single `'\n'` carrying the attributes of the previous
first delta entry; `attrSet` / `attrDelete` write shared-text attributes. -/
def handleLocalAction (reg : Reg) (st : LocalSyncSt) : SlotAction → LocalSyncSt
  | SlotAction.retainA off formats =>
    match formats with
    | some fs =>
      let kept := fs.filter (fun kv => reg.formatters.contains kv.1)
      if kept.length ≠ 0 then
        { st with sharedSlot := st.sharedSlot.formatAt st.offset off kept }
      else st
    | none => { st with offset := off }
  | SlotAction.contentInsertText s formats =>
    let delta := yToDelta st.sharedSlot.content
    let isEmpty := deltaIsEmptyPlaceholder delta
    let insLength := s.length
    let t1 := st.sharedSlot.insertAt st.offset
      (s.data.map (fun c => YUnit.ch c (formats.getD [])))
    let t2 := if isEmpty && st.offset = 0 then t1.deleteAt (t1.lengthY - 1) 1 else t1
    { sharedSlot := t2, offset := st.offset + insLength, insLength := insLength }
  | SlotAction.contentInsertComp c formats =>
    let delta := yToDelta st.sharedSlot.content
    let isEmpty := deltaIsEmptyPlaceholder delta
    let insLength := 1
    let t1 := st.sharedSlot.insertAt st.offset
      [YUnit.emb (createSharedComponentByLocalComponent c) (formats.getD [])]
    let t2 := if isEmpty && st.offset = 0 then t1.deleteAt (t1.lengthY - 1) 1 else t1
    { sharedSlot := t2, offset := st.offset + insLength, insLength := insLength }
  | SlotAction.deleteA count =>
    let delta := yToDelta st.sharedSlot.content
    let t1 := if st.sharedSlot.lengthY ≠ 0 then st.sharedSlot.deleteAt st.offset count
      else st.sharedSlot
    let t2 := if t1.lengthY = 0 then
        t1.insertAt 0 [YUnit.ch '\n' (deltaFirstAttrs delta)]
      else t1
    { st with sharedSlot := t2 }
  | SlotAction.attrSetA name value =>
    { st with sharedSlot := st.sharedSlot.setAttributeY name (YAttr.prim value) }
  | SlotAction.attrDeleteA name =>
    { st with sharedSlot := st.sharedSlot.removeAttributeY name }

/-- The whole `onContentChange` handler body: `offset` and `length` start at
0 and the actions are processed in order. -/
def handleLocalActions (reg : Reg) (t : YTextV) (actions : List SlotAction) : LocalSyncSt :=
  actions.foldl (handleLocalAction reg) ⟨t, 0, 0⟩

/-! ## Auxiliary definitions for the statements and proofs -/

/-- The items of a list of groups, flattened back to (record, action) pairs in
order. -/
def updatePairs {α : Type} : List (Update α) → List (Bool × α)
  | [] => []
  | u :: rest => u.actions.map (fun a => (u.record, a)) ++ updatePairs rest

/-- The actions of a list of transactions, flattened to (origin, action)
pairs in order. -/
def txnPairs {α : Type} : List (Txn α) → List (Origin × α)
  | [] => []
  | t :: rest => t.actions.map (fun a => (t.origin, a)) ++ txnPairs rest

/-- A delta entry that is not an insertion. -/
def nonInsertion : YDAction → Bool
  | YDAction.retainD _ => true
  | YDAction.deleteD _ => true
  | _ => false

/-- Formats of a shared text unit. -/
def unitFmts : YUnit → List (String × Prim)
  | YUnit.ch _ f => f
  | YUnit.emb _ f => f

/-- Formats of the first unit of shared text content. -/
def firstUnitFmts : List YUnit → List (String × Prim)
  | [] => []
  | u :: _ => unitFmts u

/-- The shared units one local run converts to. -/
def runYUnits : LRun → List YUnit
  | LRun.text s f => s.data.map (fun c => YUnit.ch c f)
  | LRun.embed c f => [YUnit.emb (createSharedComponentByLocalComponent c) f]

/-- The shared units a list of local runs converts to. -/
def unitsOfRuns : List LRun → List YUnit
  | [] => []
  | r :: rest => runYUnits r ++ unitsOfRuns rest

/-- The shared delta that reading back the conversion of a list of local runs
produces: one insertion per run. -/
def deltaOfRuns : List LRun → List YDAction
  | [] => []
  | LRun.text s f :: rest => YDAction.insertText s (attrsOfFmts f) :: deltaOfRuns rest
  | LRun.embed c f :: rest =>
    YDAction.insertEmbed (createSharedComponentByLocalComponent c) (attrsOfFmts f)
      :: deltaOfRuns rest

/-- The head of the delta cannot merge with a preceding character run of
attributes `a`. -/
def headNotMerge (a : Option (List (String × Prim))) : List YDAction → Prop
  | YDAction.insertText _ a2 :: _ => a2 ≠ a
  | _ => True

/-! Sizes of local values, the measure of the round-trip induction. -/

mutual
def lSizeVal : LVal → Nat
  | LVal.lmap es => 1 + lSizeEntries es
  | LVal.larr xs => 1 + lSizeArr xs
  | LVal.lslot s => 1 + lSizeSlot s
  | LVal.lprim _ => 1
def lSizeEntries : List (String × LVal) → Nat
  | [] => 0
  | (_, v) :: rest => 1 + lSizeVal v + lSizeEntries rest
def lSizeArr : List LVal → Nat
  | [] => 0
  | v :: rest => 1 + lSizeVal v + lSizeArr rest
def lSizeSlot : LSlot → Nat
  | LSlot.mk _ _ content => 1 + lSizeRuns content
def lSizeRuns : List LRun → Nat
  | [] => 0
  | LRun.text _ _ :: rest => 1 + lSizeRuns rest
  | LRun.embed c _ :: rest => 1 + lSizeComp c + lSizeRuns rest
def lSizeComp : LComp → Nat
  | LComp.mk _ state => 1 + lSizeEntries state
end

/-- No string occurs twice. -/
def nodupStr : List String → Bool
  | [] => true
  | k :: rest => !(rest.contains k) && nodupStr rest

/-- Well-formed format set: no duplicate formatter name, and every name
registered. -/
def wfFmts (reg : Reg) (f : List (String × Prim)) : Bool :=
  nodupStr (f.map Prod.fst) && f.all (fun kv => reg.formatters.contains kv.1)

/-- Normalized run list, as `Slot.toDelta()` produces it: adjacent text runs
carry different format attributes (otherwise they would be one run). -/
def normalizedRuns : List LRun → Bool
  | LRun.text s1 f1 :: LRun.text s2 f2 :: rest =>
    (attrsOfFmts f1 != attrsOfFmts f2) && normalizedRuns (LRun.text s2 f2 :: rest)
  | _ :: rest => normalizedRuns rest
  | [] => true

mutual
/-- Well-formed local value with respect to a registry: map keys are unique,
and all nested slots and components are well formed. -/
def wfVal (reg : Reg) : LVal → Bool
  | LVal.lmap es => nodupStr (es.map Prod.fst) && wfEntries reg es
  | LVal.larr xs => wfArr reg xs
  | LVal.lslot s => wfSlot reg s
  | LVal.lprim _ => true
def wfEntries (reg : Reg) : List (String × LVal) → Bool
  | [] => true
  | (_, v) :: rest => wfVal reg v && wfEntries reg rest
def wfArr (reg : Reg) : List LVal → Bool
  | [] => true
  | v :: rest => wfVal reg v && wfArr reg rest
/-- Well-formed local slot: attribute names unique, registered and distinct
from the reserved `__schema__` key; content runs normalized, with nonempty
strings, well-formed formats and well-formed embedded components. -/
def wfSlot (reg : Reg) : LSlot → Bool
  | LSlot.mk _ attrs content =>
    nodupStr (attrs.map Prod.fst)
      && attrs.all (fun kv => reg.attributes.contains kv.1 && !(kv.1 == "__schema__"))
      && normalizedRuns content
      && wfRuns reg content
def wfRuns (reg : Reg) : List LRun → Bool
  | [] => true
  | LRun.text s f :: rest => !(s == "") && wfFmts reg f && wfRuns reg rest
  | LRun.embed c f :: rest => wfFmts reg f && wfComp reg c && wfRuns reg rest
/-- Well-formed local component: a registered factory name and a well-formed
state map with unique keys. -/
def wfComp (reg : Reg) : LComp → Bool
  | LComp.mk name state =>
    reg.factories.contains name && nodupStr (state.map Prod.fst) && wfEntries reg state
end

/-! ## Properties of the local → shared flush (C2, C3) -/

theorem buildUpdatesGo_pairs {α : Type} (l : List (UpdateItem α)) :
    ∀ cur : Update α, updatePairs (buildUpdatesGo cur l)
      = cur.actions.map (fun a => (cur.record, a)) ++ l.map (fun i => (i.record, i.action)) := by
  induction l with
  | nil => intro cur; simp [buildUpdatesGo, updatePairs]
  | cons i rest ih =>
    intro cur
    simp only [buildUpdatesGo]
    by_cases h : cur.record = i.record
    · rw [if_pos h, ih]
      simp [h]
    · rw [if_neg h]
      simp only [updatePairs, ih]
      simp

theorem buildUpdatesGo_head {α : Type} (l : List (UpdateItem α)) :
    ∀ cur : Update α, (buildUpdatesGo cur l).head?.map Update.record = some cur.record := by
  induction l with
  | nil => intro cur; simp [buildUpdatesGo]
  | cons i rest ih =>
    intro cur
    simp only [buildUpdatesGo]
    by_cases h : cur.record = i.record
    · rw [if_pos h]; exact ih _
    · rw [if_neg h]; simp

theorem buildUpdatesGo_actions_ne {α : Type} (l : List (UpdateItem α)) :
    ∀ cur : Update α, cur.actions ≠ [] → ∀ u ∈ buildUpdatesGo cur l, u.actions ≠ [] := by
  induction l with
  | nil =>
    intro cur hc u hu
    simp [buildUpdatesGo] at hu
    subst hu
    exact hc
  | cons i rest ih =>
    intro cur hc u hu
    simp only [buildUpdatesGo] at hu
    by_cases h : cur.record = i.record
    · rw [if_pos h] at hu
      exact ih _ (by simp) u hu
    · rw [if_neg h] at hu
      rcases List.mem_cons.mp hu with h1 | h1
      · subst h1; exact hc
      · exact ih _ (by simp) u h1

theorem buildUpdatesGo_chain {α : Type} (l : List (UpdateItem α)) :
    ∀ cur : Update α,
      List.Chain' (fun a b : Update α => a.record ≠ b.record) (buildUpdatesGo cur l) := by
  induction l with
  | nil => intro cur; simp [buildUpdatesGo]
  | cons i rest ih =>
    intro cur
    simp only [buildUpdatesGo]
    by_cases h : cur.record = i.record
    · rw [if_pos h]; exact ih _
    · rw [if_neg h]
      refine List.chain'_cons'.mpr ⟨?_, ih _⟩
      intro y hy
      have hh := buildUpdatesGo_head rest (⟨i.record, [i.action]⟩ : Update α)
      rw [Option.mem_def] at hy
      rw [hy] at hh
      simp at hh
      rw [hh]
      exact h

theorem buildUpdatesGo_record {α : Type} (l : List (UpdateItem α)) :
    ∀ cur : Update α, ∀ u ∈ buildUpdatesGo cur l,
      u.record = cur.record ∨ ∃ i ∈ l, u.record = i.record := by
  induction l with
  | nil =>
    intro cur u hu
    simp [buildUpdatesGo] at hu
    subst hu
    exact Or.inl rfl
  | cons i rest ih =>
    intro cur u hu
    simp only [buildUpdatesGo] at hu
    by_cases h : cur.record = i.record
    · rw [if_pos h] at hu
      rcases ih _ u hu with h1 | ⟨j, hj, hj2⟩
      · exact Or.inl h1
      · exact Or.inr ⟨j, List.mem_cons_of_mem _ hj, hj2⟩
    · rw [if_neg h] at hu
      rcases List.mem_cons.mp hu with h1 | h1
      · subst h1; exact Or.inl rfl
      · rcases ih _ u h1 with h2 | ⟨j, hj, hj2⟩
        · exact Or.inr ⟨i, List.mem_cons_self _ _, h2⟩
        · exact Or.inr ⟨j, List.mem_cons_of_mem _ hj, hj2⟩

theorem updatePairs_buildUpdates {α : Type} (pending : List (UpdateItem α)) :
    updatePairs (buildUpdates pending) = pending.map (fun i => (i.record, i.action)) := by
  cases pending with
  | nil => simp [buildUpdates, updatePairs]
  | cons i rest =>
    simp only [buildUpdates]
    rw [buildUpdatesGo_pairs]
    simp

theorem txnPairs_map_flush {α : Type} (us : List (Update α)) :
    txnPairs (us.map (fun u =>
        (⟨if u.record then Origin.yDoc else Origin.noRecord, u.actions⟩ : Txn α)))
      = (updatePairs us).map
          (fun pr => ((if pr.1 then Origin.yDoc else Origin.noRecord), pr.2)) := by
  induction us with
  | nil => simp [txnPairs, updatePairs]
  | cons u rest ih =>
    simp only [List.map_cons, txnPairs, updatePairs, List.map_append, ih, List.map_map]
    rfl

/-- C2.  The flush of the pending queue partitions it into maximal runs of
consecutive items with equal record flag, keeps every item in arrival order
inside exactly one transaction, gives record-true groups the local-origin
token (`yDoc`) and record-false groups the untracked token, fires the applied
notification last, and flushes a queue tagged `[true, true, false, true]` as
exactly the three transactions `[T,T]`, `[F]`, `[T]`. -/
theorem flush_partitions_pending_queue : ∀ (α : Type) (pending : List (UpdateItem α)),
    (txnPairs (flushTransactions pending)
      = pending.map (fun i => ((if i.record then Origin.yDoc else Origin.noRecord), i.action)))
  ∧ (∀ t ∈ flushTransactions pending, t.actions ≠ [])
  ∧ List.Chain' (fun a b : Txn α => a.origin ≠ b.origin) (flushTransactions pending)
  ∧ (∀ t ∈ flushTransactions pending, t.origin = Origin.yDoc ∨ t.origin = Origin.noRecord)
  ∧ ((flushEvents pending).getLast? = some FlushEvent.localChangesApplied)
  ∧ (flushTransactions [⟨true, (0 : Nat)⟩, ⟨true, 1⟩, ⟨false, 2⟩, ⟨true, 3⟩]
      = [⟨Origin.yDoc, [0, 1]⟩, ⟨Origin.noRecord, [2]⟩, ⟨Origin.yDoc, [3]⟩]) := by
  intro α pending
  refine ⟨?_, ?_, ?_, ?_, ?_, by rfl⟩
  · rw [flushTransactions, txnPairs_map_flush, updatePairs_buildUpdates, List.map_map]
    rfl
  · intro t ht
    rw [flushTransactions] at ht
    rcases List.mem_map.mp ht with ⟨u, hu, hut⟩
    cases pending with
    | nil => simp [buildUpdates] at hu
    | cons i rest =>
      simp only [buildUpdates] at hu
      have := buildUpdatesGo_actions_ne rest (⟨i.record, [i.action]⟩ : Update α) (by simp) u hu
      rw [← hut]
      exact this
  · rw [flushTransactions]
    rw [List.chain'_map]
    cases pending with
    | nil => simp [buildUpdates]
    | cons i rest =>
      simp only [buildUpdates]
      refine List.Chain'.imp ?_ (buildUpdatesGo_chain rest _)
      intro a b hab
      simp only [ne_eq]
      intro hor
      apply hab
      by_cases ha : a.record <;> by_cases hb : b.record <;>
        simp [ha, hb] at hor ⊢
  · intro t ht
    rcases List.mem_map.mp ht with ⟨u, _, hut⟩
    rw [← hut]
    by_cases hu : u.record <;> simp [hu]
  · rw [flushEvents]
    exact List.getLast?_concat _

/-- Witness for C2 at the concrete queue `[T,T,F,T]`. -/
theorem flush_partitions_pending_queue_witness :
    (Txn.mk Origin.yDoc [(0 : Nat), 1]).actions ≠ [] :=
  (flush_partitions_pending_queue Nat [⟨true, 0⟩, ⟨true, 1⟩, ⟨false, 2⟩, ⟨true, 3⟩]).2.1
    (Txn.mk Origin.yDoc [0, 1]) (by decide)

/-- C3.  An observed shared-document event whose transaction origin is the
engine's own `yDoc` performs no local mutation at all, and every transaction
the flush emits for record-true pending items carries exactly that origin, so
a local edit observed back through the shared document's own event is never
reapplied locally. -/
theorem echo_suppression : ∀ (α σ : Type) (st : EngineSt α σ)
    (fn : EngineSt α σ → EngineSt α σ),
    (runRemoteUpdate Origin.yDoc st fn = st)
  ∧ (∀ (pending : List (UpdateItem α)) (t : Txn α), t ∈ flushTransactions pending →
      (∀ i ∈ pending, i.record = true) → runRemoteUpdate t.origin st fn = st) := by
  intro α σ st fn
  constructor
  · simp [runRemoteUpdate]
  · intro pending t ht hall
    have : t.origin = Origin.yDoc := by
      rw [flushTransactions] at ht
      rcases List.mem_map.mp ht with ⟨u, hu, hut⟩
      cases pending with
      | nil => simp [buildUpdates] at hu
      | cons i rest =>
        simp only [buildUpdates] at hu
        have hrec := buildUpdatesGo_record rest (⟨i.record, [i.action]⟩ : Update α) u hu
        have hu_true : u.record = true := by
          rcases hrec with h | ⟨j, hj, hj2⟩
          · rw [h]; exact hall i (List.mem_cons_self _ _)
          · rw [hj2]; exact hall j (List.mem_cons_of_mem _ hj)
        rw [← hut, hu_true]
        simp
    rw [this]
    simp [runRemoteUpdate]

/-- Witness for C3: a concrete record-true queue flushes with origin `yDoc`
and its echo leaves a concrete engine state untouched. -/
theorem echo_suppression_witness :
    runRemoteUpdate (Txn.mk Origin.yDoc [(5 : Nat)]).origin
        (EngineSt.mk false [] 0 : EngineSt Nat Nat) id
      = EngineSt.mk false [] 0 :=
  (echo_suppression Nat Nat ⟨false, [], 0⟩ id).2 [⟨true, 5⟩] ⟨Origin.yDoc, [5]⟩
    (by decide) (by decide)

/-! ## Mutations triggered during replay (C6) -/

/-- C6, counterexample.  A local mutation triggered while a remote replay is
running (inside `runRemoteUpdate`, so with `updateFromRemote` set) leaves the
pending queue empty: it is discarded by the early return of `runLocalUpdate`,
not captured as a `record = false` item as the claim states. -/
theorem replay_mutation_not_queued_counterexample :
    (runRemoteUpdate (Origin.remote 0) (EngineSt.mk false [] 0 : EngineSt Nat Nat)
        (fun s => runLocalUpdateDefault s 7)).updateRemoteActions = []
  ∧ ([] : List (UpdateItem Nat)) ≠ [⟨false, 7⟩] := by
  constructor
  · rfl
  · decide

/-- C6, amended.  A local mutation triggered while `updateFromRemote` is set
(that is, during a remote or history replay) is discarded entirely — neither
queued nor forwarded; outside replay the mutation is queued, and every call
site of `runLocalUpdate` uses the default flag, so queued items always carry
`record = true`; consequently a replay whose body calls `runLocalUpdate`
leaves the pending queue unchanged, whatever the origin. -/
theorem replay_mutation_discarded {α σ : Type} (st : EngineSt α σ) (fn : α)
    (record : Bool) :
    (st.updateFromRemote = true → runLocalUpdate st fn record = st)
  ∧ (st.updateFromRemote = false →
      runLocalUpdate st fn record
        = { st with updateRemoteActions := st.updateRemoteActions ++ [⟨record, fn⟩] })
  ∧ (st.updateFromRemote = false →
      (runLocalUpdateDefault st fn).updateRemoteActions
        = st.updateRemoteActions ++ [⟨true, fn⟩])
  ∧ (∀ origin : Origin,
      (runRemoteUpdate origin st (fun s => runLocalUpdateDefault s fn)).updateRemoteActions
        = st.updateRemoteActions) := by
  refine ⟨?_, ?_, ?_, ?_⟩
  · intro h; simp [runLocalUpdate, h]
  · intro h; simp [runLocalUpdate, h]
  · intro h; simp [runLocalUpdateDefault, runLocalUpdate, h]
  · intro origin
    by_cases h : origin = Origin.yDoc
    · simp [runRemoteUpdate, h]
    · simp [runRemoteUpdate, h, runLocalUpdateDefault, runLocalUpdate]

/-- Witness for the amended C6 at a concrete state. -/
theorem replay_mutation_discarded_witness :
    runLocalUpdate (EngineSt.mk true [] 0 : EngineSt Nat Nat) 7 false
      = EngineSt.mk true [] 0 :=
  (replay_mutation_discarded (EngineSt.mk true [] 0 : EngineSt Nat Nat) 7 false).1 rfl

/-! ## History stack bounds (C7) and `clear` (C8) -/

/-- C7.  With `stackSize = 1`, three undoable edits leave the native undo
stack with the single most recent entry but leave the cursor-history list
with two slots — a hole created by the `historyItems.length = this.index`
truncation (the eviction shifts both lists without decrementing `index`) and
the latest snapshot — and `index = 3`, pointing past both lists: the native
stack and the cursor-history list are not evicted in lockstep. -/
theorem history_eviction_desync :
    (undoableEdit 1 (undoableEdit 1 (undoableEdit 1
        (HistorySt.mk ([] : List Nat) [] ([] : List (Option Nat)) 0) 1 1) 2 2) 3 3)
      = HistorySt.mk [3] [] [none, some 3] 3
  ∧ ([none, some (3 : Nat)].length ≠ [(3 : Nat)].length) := by
  constructor
  · rfl
  · decide

/-- C8.  On any history state whose cursor-history list has no holes,
`clear()` leaves at most one entry — the most recent one when the list was
nonempty — and sets `index` to the length of what remains (1 when an entry
remains, 0 otherwise). -/
theorem clear_collapses_history {E S : Type} (st : HistorySt E S)
    (hnoholes : ∀ x ∈ st.historyItems, x ≠ none) :
    ((clear st).historyItems.length ≤ 1)
  ∧ ((clear st).index = ((clear st).historyItems.length : Int))
  ∧ (st.historyItems = [] → (clear st).historyItems = [] ∧ (clear st).index = 0)
  ∧ (∀ x, st.historyItems.getLast? = some x →
      (clear st).historyItems = [x] ∧ (clear st).index = 1) := by
  refine ⟨?_, ?_, ?_, ?_⟩
  · rw [clear]
    cases h : st.historyItems.getLast? with
    | none => simp
    | some x =>
      cases x with
      | none => simp
      | some y => simp
  · rw [clear]
    cases h : st.historyItems.getLast? with
    | none => simp
    | some x =>
      cases x with
      | none => simp
      | some y => simp
  · intro h
    rw [clear, h]
    simp [List.getLast?]
  · intro x hx
    have hmem : x ∈ st.historyItems := by
      rcases List.mem_getLast?_eq_getLast (Option.mem_def.mpr hx) with ⟨hne, hxe⟩
      rw [hxe]
      exact List.getLast_mem hne
    cases x with
    | none => exact absurd rfl (hnoholes none hmem)
    | some y =>
      rw [clear, hx]
      exact ⟨rfl, rfl⟩

/-- Witness for C8 at a concrete two-entry history. -/
theorem clear_collapses_history_witness :
    (clear (HistorySt.mk ([] : List Nat) [] [some 4, some (5 : Nat)] 2)).historyItems
        = [some 5]
  ∧ (clear (HistorySt.mk ([] : List Nat) [] [some 4, some (5 : Nat)] 2)).index = 1 :=
  (clear_collapses_history (HistorySt.mk ([] : List Nat) [] [some 4, some 5] 2)
    (by decide)).2.2.2 (some 5) rfl

/-! ## Selection adjustment under remote replay (C4, C5) -/

theorem startOffset_sameSlot (i : Nat) (a f : Int) :
    SelSt.startOffset ⟨some i, some a, some i, some f⟩ = some (min a f) := by
  simp [SelSt.startOffset]

theorem applyTextDeltaAction_retain_none (formatters : List String) (origin : Origin)
    (slotId : Nat) (st : SyncSt) (p : Nat) :
    applyTextDeltaAction formatters origin slotId st (TextDelta.retain p none)
      = ⟨st.slot.retainTo p, st.sel⟩ := rfl

theorem applyTextDeltaAction_delete_eval (formatters : List String) (origin : Origin)
    (slotId : Nat) (slot : RSlot) (n : Nat) (a f : Int) (hm : origin ≠ Origin.manager) :
    applyTextDeltaAction formatters origin slotId
        ⟨slot, ⟨some slotId, some a, some slotId, some f⟩⟩ (TextDelta.deleteN n)
      = ⟨slot.deleteCount n,
          ⟨some slotId, some (if a ≥ (slot.index : Int) then min a f - (n : Int) else a),
           some slotId, some (if f ≥ (slot.index : Int) then f - (n : Int) else f)⟩⟩ := by
  simp only [applyTextDeltaAction]
  simp only [SelSt.isSelected, Option.isSome_some, Bool.and_self, Bool.true_and,
    Option.getD_some, SelSt.setAnchor, SelSt.setFocus, startOffset_sameSlot slotId a f]
  simp only [hm, decide_False, Bool.not_false, Bool.and_true, eq_self_iff_true, decide_True,
    Bool.true_and, if_true]
  by_cases ha : a ≥ (slot.index : Int) <;> by_cases hf : f ≥ (slot.index : Int) <;>
    simp [ha, hf]

theorem applyTextDeltaAction_delete_manager (formatters : List String) (slotId : Nat)
    (slot : RSlot) (n : Nat) (sel : SelSt) :
    applyTextDeltaAction formatters Origin.manager slotId ⟨slot, sel⟩ (TextDelta.deleteN n)
      = ⟨slot.deleteCount n, sel⟩ := by
  simp only [applyTextDeltaAction]
  simp

theorem applyTextDeltaAction_insert_eval (formatters : List String) (origin : Origin)
    (slotId : Nat) (slot : RSlot) (s : String) (a f : Int) (hm : origin ≠ Origin.manager) :
    applyTextDeltaAction formatters origin slotId
        ⟨slot, ⟨some slotId, some a, some slotId, some f⟩⟩ (TextDelta.insertText s none)
      = ⟨slot.insertUnits (s.data.map (fun c => RUnit.ch c [])),
          ⟨some slotId, some (if a > (slot.index : Int) then a + (s.length : Int) else a),
           some slotId, some (if f > (slot.index : Int) then f + (s.length : Int) else f)⟩⟩ := by
  simp only [applyTextDeltaAction, remoteFormatsToLocal]
  simp only [SelSt.isSelected, Option.isSome_some, Bool.and_self, Bool.true_and,
    Option.getD_some, SelSt.setAnchor, SelSt.setFocus]
  simp only [hm, decide_False, Bool.not_false, Bool.and_true, eq_self_iff_true, decide_True,
    Bool.true_and, if_true]
  by_cases ha : a > (slot.index : Int) <;> by_cases hf : f > (slot.index : Int) <;>
    simp [ha, hf]

theorem applyTextDeltaAction_insert_manager (formatters : List String) (slotId : Nat)
    (slot : RSlot) (s : String) (sel : SelSt) :
    applyTextDeltaAction formatters Origin.manager slotId ⟨slot, sel⟩
        (TextDelta.insertText s none)
      = ⟨slot.insertUnits (s.data.map (fun c => RUnit.ch c [])), sel⟩ := by
  simp only [applyTextDeltaAction, remoteFormatsToLocal]
  simp

theorem strLenData (s : String) : s.length = s.data.length := rfl

theorem retainTo_zero (content : List RUnit) :
    RSlot.retainTo ⟨content, 0⟩ 0 = ⟨content, 0⟩ := by
  simp [RSlot.retainTo]

theorem syncSlotRemoteDelta_retain_delete (formatters : List String) (origin : Origin)
    (slotId : Nat) (content : List RUnit) (p n : Nat) (a f : Int)
    (hyd : origin ≠ Origin.yDoc) (hp : p ≤ content.length) :
    syncSlotRemoteDelta formatters origin slotId
        ⟨⟨content, 0⟩, ⟨some slotId, some a, some slotId, some f⟩⟩
        [TextDelta.retain p none, TextDelta.deleteN n]
      = ⟨⟨content.take p ++ content.drop (p + n), p⟩,
          if origin = Origin.manager then ⟨some slotId, some a, some slotId, some f⟩
          else
            ⟨some slotId, some (if a ≥ (p : Int) then min a f - (n : Int) else a),
             some slotId, some (if f ≥ (p : Int) then f - (n : Int) else f)⟩⟩ := by
  rw [syncSlotRemoteDelta, if_neg hyd]
  simp only [List.foldl_cons, List.foldl_nil]
  rw [retainTo_zero, applyTextDeltaAction_retain_none]
  have h2 : RSlot.retainTo ⟨content, 0⟩ p = ⟨content, p⟩ := by
    simp [RSlot.retainTo, min_eq_left hp]
  rw [h2]
  by_cases hm : origin = Origin.manager
  · subst hm
    rw [applyTextDeltaAction_delete_manager]
    simp [RSlot.deleteCount]
  · rw [applyTextDeltaAction_delete_eval formatters origin slotId ⟨content, p⟩ n a f hm]
    simp [RSlot.deleteCount, hm]

theorem syncSlotRemoteDelta_retain_insert (formatters : List String) (origin : Origin)
    (slotId : Nat) (content : List RUnit) (p : Nat) (s : String) (a f : Int)
    (hyd : origin ≠ Origin.yDoc) (hp : p ≤ content.length) :
    syncSlotRemoteDelta formatters origin slotId
        ⟨⟨content, 0⟩, ⟨some slotId, some a, some slotId, some f⟩⟩
        [TextDelta.retain p none, TextDelta.insertText s none]
      = ⟨⟨content.take p ++ s.data.map (fun c => RUnit.ch c []) ++ content.drop p,
          p + s.length⟩,
          if origin = Origin.manager then ⟨some slotId, some a, some slotId, some f⟩
          else
            ⟨some slotId, some (if a > (p : Int) then a + (s.length : Int) else a),
             some slotId, some (if f > (p : Int) then f + (s.length : Int) else f)⟩⟩ := by
  rw [syncSlotRemoteDelta, if_neg hyd]
  simp only [List.foldl_cons, List.foldl_nil]
  rw [retainTo_zero, applyTextDeltaAction_retain_none]
  have h2 : RSlot.retainTo ⟨content, 0⟩ p = ⟨content, p⟩ := by
    simp [RSlot.retainTo, min_eq_left hp]
  rw [h2]
  by_cases hm : origin = Origin.manager
  · subst hm
    rw [applyTextDeltaAction_insert_manager, if_pos rfl]
    simp only [RSlot.insertUnits, List.length_map, strLenData]
  · rw [applyTextDeltaAction_insert_eval formatters origin slotId ⟨content, p⟩ s a f hm,
      if_neg hm]
    simp only [RSlot.insertUnits, List.length_map, strLenData]

/-- C4, counterexample.  A remote delete of 4 units at position 3 replayed
into a slot whose collapsed selection endpoint sits at offset 5 (inside the
deleted range) moves the anchor to offset 1 = 5 - 4: the source subtracts the
full deleted count with no clamping, so the anchor does not stay at the
delete's start offset 3 as the claim states. -/
theorem remote_delete_no_clamp_counterexample :
    (syncSlotRemoteDelta [] (Origin.remote 0) 0
        ⟨⟨List.replicate 7 (RUnit.ch 'x' []), 0⟩, ⟨some 0, some 5, some 0, some 5⟩⟩
        [TextDelta.retain 3 none, TextDelta.deleteN 4]).sel.anchorOffset = some 1
  ∧ ((some (1 : Int) ≠ some (3 : Int))) := by
  constructor
  · decide
  · decide

/-- C4, amended.  For a non-history remote delete of `n` units at position
`p` replayed into a slot holding both endpoints of a live selection, an
endpoint at offset at or after `p` is shifted backward by the deleted count
with no clamping: the anchor becomes the selection's start offset (the
smaller of the two offsets) minus `n` and the focus becomes the focus offset
minus `n`, so a delete spanning an endpoint moves it before the delete's
start offset; endpoints strictly before `p` are unchanged, and history-origin
replay adjusts nothing. -/
theorem remote_delete_shifts_selection (formatters : List String) (origin : Origin)
    (slotId : Nat) (content : List RUnit) (p n : Nat) (a f : Int)
    (hyd : origin ≠ Origin.yDoc) (hmg : origin ≠ Origin.manager)
    (hp : p ≤ content.length) :
    ((syncSlotRemoteDelta formatters origin slotId
        ⟨⟨content, 0⟩, ⟨some slotId, some a, some slotId, some f⟩⟩
        [TextDelta.retain p none, TextDelta.deleteN n]).sel
      = ⟨some slotId, some (if a ≥ (p : Int) then min a f - (n : Int) else a),
         some slotId, some (if f ≥ (p : Int) then f - (n : Int) else f)⟩)
  ∧ ((syncSlotRemoteDelta formatters Origin.manager slotId
        ⟨⟨content, 0⟩, ⟨some slotId, some a, some slotId, some f⟩⟩
        [TextDelta.retain p none, TextDelta.deleteN n]).sel
      = ⟨some slotId, some a, some slotId, some f⟩) := by
  constructor
  · rw [syncSlotRemoteDelta_retain_delete formatters origin slotId content p n a f hyd hp]
    simp [hmg]
  · rw [syncSlotRemoteDelta_retain_delete formatters Origin.manager slotId content p n a f
      (by decide) hp]
    simp

/-- Witness for the amended C4: the claim's own first example — anchor at 5,
remote delete of 2 units at offset 1 — lands on offset 3. -/
theorem remote_delete_shifts_selection_witness :
    (syncSlotRemoteDelta [] (Origin.remote 0) 0
        ⟨⟨List.replicate 7 (RUnit.ch 'x' []), 0⟩, ⟨some 0, some 5, some 0, some 5⟩⟩
        [TextDelta.retain 1 none, TextDelta.deleteN 2]).sel
      = ⟨some 0, some 3, some 0, some 3⟩ := by
  have h := (remote_delete_shifts_selection [] (Origin.remote 0) 0
      (List.replicate 7 (RUnit.ch 'x' [])) 1 2 5 5 (by decide) (by decide) (by simp)).1
  rw [h]
  norm_num

/-- C5, counterexample.  A non-history remote insert of 3 units exactly at a
collapsed endpoint's offset 2 leaves the endpoint at 2: the source shifts
only endpoints strictly after the insert position (`anchorOffset > index`),
so the claim's "at or before that endpoint's offset" fails at equality, where
it requires a shift to 5. -/
theorem remote_insert_at_endpoint_counterexample :
    (syncSlotRemoteDelta [] (Origin.remote 0) 0
        ⟨⟨List.replicate 5 (RUnit.ch 'x' []), 0⟩, ⟨some 0, some 2, some 0, some 2⟩⟩
        [TextDelta.retain 2 none, TextDelta.insertText "abc" none]).sel.anchorOffset
      = some 2
  ∧ ((some (2 : Int) ≠ some (5 : Int))) := by
  constructor
  · decide
  · decide

/-- C5, amended.  For a non-history remote insert of a string at position `p`
replayed into a slot holding both endpoints of a live selection, an endpoint
strictly after `p` is shifted forward by the inserted length, an endpoint at
or before `p` (including exactly at `p`) is unchanged, and history-origin
replay adjusts nothing. -/
theorem remote_insert_shifts_selection (formatters : List String) (origin : Origin)
    (slotId : Nat) (content : List RUnit) (p : Nat) (s : String) (a f : Int)
    (hyd : origin ≠ Origin.yDoc) (hmg : origin ≠ Origin.manager)
    (hp : p ≤ content.length) :
    ((syncSlotRemoteDelta formatters origin slotId
        ⟨⟨content, 0⟩, ⟨some slotId, some a, some slotId, some f⟩⟩
        [TextDelta.retain p none, TextDelta.insertText s none]).sel
      = ⟨some slotId, some (if a > (p : Int) then a + (s.length : Int) else a),
         some slotId, some (if f > (p : Int) then f + (s.length : Int) else f)⟩)
  ∧ ((syncSlotRemoteDelta formatters Origin.manager slotId
        ⟨⟨content, 0⟩, ⟨some slotId, some a, some slotId, some f⟩⟩
        [TextDelta.retain p none, TextDelta.insertText s none]).sel
      = ⟨some slotId, some a, some slotId, some f⟩) := by
  constructor
  · rw [syncSlotRemoteDelta_retain_insert formatters origin slotId content p s a f hyd hp]
    simp [hmg]
  · rw [syncSlotRemoteDelta_retain_insert formatters Origin.manager slotId content p s a f
      (by decide) hp]
    simp

/-- Witness for the amended C5: the claim's own example — anchor at 5,
non-history remote insert of 3 units at offset 2 — lands on offset 8. -/
theorem remote_insert_shifts_selection_witness :
    (syncSlotRemoteDelta [] (Origin.remote 0) 0
        ⟨⟨List.replicate 7 (RUnit.ch 'x' []), 0⟩, ⟨some 0, some 5, some 0, some 5⟩⟩
        [TextDelta.retain 2 none, TextDelta.insertText "abc" none]).sel
      = ⟨some 0, some 8, some 0, some 8⟩ := by
  have h := (remote_insert_shifts_selection [] (Origin.remote 0) 0
      (List.replicate 7 (RUnit.ch 'x' [])) 2 "abc" 5 5 (by decide) (by decide) (by simp)).1
  rw [h]
  norm_num [strLenData]

/-! ## The shared text is never left empty (C10) -/

theorem attrsOfFmts_getD (f : List (String × Prim)) : (attrsOfFmts f).getD [] = f := by
  rw [attrsOfFmts]
  by_cases h : f = [] <;> simp [h]

theorem deltaFirstAttrs_yToDelta (us : List YUnit) :
    deltaFirstAttrs (yToDelta us) = firstUnitFmts us := by
  cases us with
  | nil => rfl
  | cons u rest =>
    cases u with
    | ch c f =>
      simp only [yToDelta]
      cases hr : yToDelta rest with
      | nil => simp [deltaFirstAttrs, firstUnitFmts, unitFmts, attrsOfFmts_getD]
      | cons d ds =>
        cases d with
        | insertText s a =>
          by_cases ha : a = attrsOfFmts f
          · simp [ha, deltaFirstAttrs, firstUnitFmts, unitFmts, attrsOfFmts_getD]
          · simp [ha, deltaFirstAttrs, firstUnitFmts, unitFmts, attrsOfFmts_getD]
        | insertEmbed m a =>
          simp [deltaFirstAttrs, firstUnitFmts, unitFmts, attrsOfFmts_getD]
        | retainD n =>
          simp [deltaFirstAttrs, firstUnitFmts, unitFmts, attrsOfFmts_getD]
        | deleteD n =>
          simp [deltaFirstAttrs, firstUnitFmts, unitFmts, attrsOfFmts_getD]
    | emb m f =>
      simp [yToDelta, deltaFirstAttrs, firstUnitFmts, unitFmts, attrsOfFmts_getD]

theorem placeholder_delta (a0 : List (String × Prim)) :
    deltaIsEmptyPlaceholder (yToDelta [YUnit.ch '\n' a0]) = true := by
  simp only [yToDelta, deltaIsEmptyPlaceholder]
  rfl

/-- C10.  Replaying local content actions onto the shared text never leaves
it empty: after any local delete action the shared text holds at least one
unit; a delete that empties it puts a single `'\n'` carrying the attributes
of the previous first content run in its place; and a local insert at offset
0 into a shared text holding only the empty placeholder — whether the
inserted content is a string or an embedded component — removes the
placeholder right after the insert, so only the inserted content remains. -/
theorem local_delete_keeps_placeholder (reg : Reg) (st : LocalSyncSt) (count : Nat)
    (s : String) (cc : LComp) (formats : Option (List (String × Prim)))
    (a0 : List (String × Prim)) :
    (1 ≤ (handleLocalAction reg st (SlotAction.deleteA count)).sharedSlot.lengthY)
  ∧ (st.sharedSlot.content ≠ [] →
      st.sharedSlot.content.take st.offset
          ++ st.sharedSlot.content.drop (st.offset + count) = [] →
      (handleLocalAction reg st (SlotAction.deleteA count)).sharedSlot.content
        = [YUnit.ch '\n' (firstUnitFmts st.sharedSlot.content)])
  ∧ (st.sharedSlot.content = [YUnit.ch '\n' a0] → st.offset = 0 →
      (handleLocalAction reg st (SlotAction.contentInsertText s formats)).sharedSlot.content
        = s.data.map (fun c => YUnit.ch c (formats.getD [])))
  ∧ (st.sharedSlot.content = [YUnit.ch '\n' a0] → st.offset = 0 →
      (handleLocalAction reg st (SlotAction.contentInsertComp cc formats)).sharedSlot.content
        = [YUnit.emb (createSharedComponentByLocalComponent cc) (formats.getD [])]) := by
  obtain ⟨t, offset, ilen⟩ := st
  obtain ⟨yattrs, content⟩ := t
  refine ⟨?_, ?_, ?_, ?_⟩
  · cases content with
    | nil =>
      simp [handleLocalAction, YTextV.lengthY, YTextV.content, YTextV.deleteAt,
        YTextV.insertAt, insertYUnits]
    | cons u rest =>
      by_cases h4 : offset = 0 ∧ rest.length + 1 - (offset + count) = 0
      · obtain ⟨h5, h6⟩ := h4
        subst h5
        simp only [Nat.zero_add] at h6
        simp [handleLocalAction, YTextV.lengthY, YTextV.content, YTextV.deleteAt,
          YTextV.insertAt, insertYUnits, h6]
      · simp [handleLocalAction, YTextV.lengthY, YTextV.content, YTextV.deleteAt,
          YTextV.insertAt, insertYUnits, h4]
        omega
  · intro hne hdel
    simp only [YTextV.content] at hne hdel ⊢
    cases content with
    | nil => exact absurd rfl hne
    | cons u rest =>
      rw [List.append_eq_nil] at hdel
      obtain ⟨htake, hdrop⟩ := hdel
      have hoff : offset = 0 := by
        have h := congrArg List.length htake
        simp at h
        omega
      have hcnt : rest.length + 1 ≤ offset + count := by
        have h := congrArg List.length hdrop
        simp at h
        omega
      subst hoff
      simp only [Nat.zero_add] at hcnt
      have hd1 : (u :: rest).length ≤ count := by
        simp only [List.length_cons]
        omega
      have hd0 : rest.length + 1 - count = 0 := Nat.sub_eq_zero_of_le hcnt
      simp [handleLocalAction, YTextV.lengthY, YTextV.content, YTextV.deleteAt,
        YTextV.insertAt, insertYUnits, hd0, List.drop_eq_nil_of_le hd1,
        deltaFirstAttrs_yToDelta, firstUnitFmts]
  · intro hph hoff
    simp only [YTextV.content] at hph
    subst hoff
    subst hph
    simp only [handleLocalAction, YTextV.lengthY, YTextV.content, YTextV.deleteAt,
      YTextV.insertAt, insertYUnits, placeholder_delta, Bool.true_and]
    simp only [List.take_nil, List.drop_nil, List.nil_append, List.take_zero,
      List.drop_zero, List.append_nil]
    have hlen : (List.map (fun c => YUnit.ch c (formats.getD [])) s.data
        ++ [YUnit.ch '\n' a0]).length = s.data.length + 1 := by
      simp
    simp only [eq_self_iff_true, if_true, decide_True, hlen]
    have h1 : s.data.length + 1 - 1 = (List.map (fun c => YUnit.ch c (formats.getD []))
        s.data).length := by
      simp
    rw [h1, List.take_left]
    have h2 : (List.map (fun c => YUnit.ch c (formats.getD [])) s.data).length + 1
        = (List.map (fun c => YUnit.ch c (formats.getD [])) s.data).length + 1 := rfl
    rw [show (List.map (fun c => YUnit.ch c (formats.getD [])) s.data).length + 1
        = (List.map (fun c => YUnit.ch c (formats.getD [])) s.data
            ++ [YUnit.ch '\n' a0]).length by simp]
    rw [List.drop_length]
    simp
  · intro hph hoff
    simp only [YTextV.content] at hph
    subst hoff
    subst hph
    simp only [handleLocalAction, YTextV.lengthY, YTextV.content, YTextV.deleteAt,
      YTextV.insertAt, insertYUnits, placeholder_delta, Bool.true_and]
    simp

/-- Witness for C10: a one-unit shared text emptied by a local delete gets
back a single placeholder carrying the deleted run's formats. -/
theorem local_delete_keeps_placeholder_witness :
    (handleLocalAction ⟨[], [], []⟩
        ⟨⟨[], [YUnit.ch 'a' [("bold", Prim.bool true)]]⟩, 0, 0⟩
        (SlotAction.deleteA 1)).sharedSlot.content
      = [YUnit.ch '\n' [("bold", Prim.bool true)]] :=
  (local_delete_keeps_placeholder ⟨[], [], []⟩
      ⟨⟨[], [YUnit.ch 'a' [("bold", Prim.bool true)]]⟩, 0, 0⟩ 1 "" (LComp.mk "p" [])
      none []).2.1
    (by simp [YTextV.content]) rfl

/-! ## Rejection of non-insertion delta entries (C9) -/

theorem applyDelta_error_of_nonInsertion (reg : Reg) :
    ∀ (delta : List YDAction) (slot : LSlot),
      (∃ a ∈ delta, nonInsertion a = true) →
      ∃ e, applyDelta reg slot delta = Except.error e := by
  intro delta
  induction delta with
  | nil =>
    intro slot h
    rcases h with ⟨a, ha, _⟩
    exact absurd ha (List.not_mem_nil a)
  | cons d rest ih =>
    intro slot h
    cases d with
    | insertText s a =>
      rcases h with ⟨x, hx, hxn⟩
      rcases List.mem_cons.mp hx with h1 | h1
      · subst h1; simp [nonInsertion] at hxn
      · rcases ih (slotInsertText slot s (remoteFormatsToLocal reg.formatters a))
          ⟨x, h1, hxn⟩ with ⟨e, he⟩
        exact ⟨e, by rw [applyDelta, he]⟩
    | insertEmbed m a =>
      rcases h with ⟨x, hx, hxn⟩
      rcases List.mem_cons.mp hx with h1 | h1
      · subst h1; simp [nonInsertion] at hxn
      · cases hc : createLocalComponentBySharedComponent reg m with
        | error e => exact ⟨e, by rw [applyDelta, hc]⟩
        | ok comp =>
          rcases ih (slotInsertEmbed slot comp (remoteFormatsToLocal reg.formatters a))
            ⟨x, h1, hxn⟩ with ⟨e, he⟩
          exact ⟨e, by rw [applyDelta, hc]; exact he⟩
    | retainD n => exact ⟨CErr.unexpectedDelta, by rw [applyDelta]⟩
    | deleteD n => exact ⟨CErr.unexpectedDelta, by rw [applyDelta]⟩

theorem applyDelta_unexpected_of_prefix (reg : Reg) :
    ∀ (pre : List YDAction) (bad : YDAction) (post : List YDAction) (slot : LSlot),
      (∀ a ∈ pre, ∃ s attrs, a = YDAction.insertText s attrs) →
      nonInsertion bad = true →
      applyDelta reg slot (pre ++ bad :: post) = Except.error CErr.unexpectedDelta := by
  intro pre
  induction pre with
  | nil =>
    intro bad post slot _ hbad
    cases bad with
    | retainD n => rw [List.nil_append, applyDelta]
    | deleteD n => rw [List.nil_append, applyDelta]
    | insertText s a => simp [nonInsertion] at hbad
    | insertEmbed m a => simp [nonInsertion] at hbad
  | cons d rest ih =>
    intro bad post slot hpre hbad
    rcases hpre d (List.mem_cons_self _ _) with ⟨s, attrs, rfl⟩
    rw [List.cons_append, applyDelta]
    exact ih bad post _ (fun a ha => hpre a (List.mem_cons_of_mem _ ha)) hbad

theorem yToDelta_insertions (us : List YUnit) :
    ∀ a ∈ yToDelta us, nonInsertion a = false := by
  induction us with
  | nil => simp [yToDelta]
  | cons u rest ih =>
    cases u with
    | ch c f =>
      simp only [yToDelta]
      cases hr : yToDelta rest with
      | nil =>
        intro a ha
        simp at ha
        subst ha
        rfl
      | cons d ds =>
        rw [hr] at ih
        cases d with
        | insertText s a2 =>
          dsimp only
          by_cases ha2 : a2 = attrsOfFmts f
          · rw [if_pos ha2]
            intro a ha
            rcases List.mem_cons.mp ha with h1 | h1
            · subst h1; rfl
            · exact ih a (List.mem_cons_of_mem _ h1)
          · rw [if_neg ha2]
            intro a ha
            rcases List.mem_cons.mp ha with h1 | h1
            · subst h1; rfl
            · exact ih a h1
        | insertEmbed m a2 =>
          intro a ha
          rcases List.mem_cons.mp ha with h1 | h1
          · subst h1; rfl
          · exact ih a h1
        | retainD n =>
          intro a ha
          rcases List.mem_cons.mp ha with h1 | h1
          · subst h1; rfl
          · exact ih a h1
        | deleteD n =>
          intro a ha
          rcases List.mem_cons.mp ha with h1 | h1
          · subst h1; rfl
          · exact ih a h1
    | emb m f =>
      intro a ha
      rcases List.mem_cons.mp ha with h1 | h1
      · subst h1; rfl
      · exact ih a h1

theorem no_unexpectedDelta_aux (reg : Reg) :
    ∀ N : Nat,
      (∀ v, ySizeVal v ≤ N →
        createLocalModelBySharedByModel reg v ≠ Except.error CErr.unexpectedDelta)
    ∧ (∀ es, ySizeEntries es ≤ N →
        createLocalMapBySharedMap reg es ≠ Except.error CErr.unexpectedDelta)
    ∧ (∀ xs, ySizeArr xs ≤ N →
        createLocalArrayBySharedArray reg xs ≠ Except.error CErr.unexpectedDelta)
    ∧ (∀ t, ySizeText t ≤ N →
        createLocalSlotBySharedSlot reg t ≠ Except.error CErr.unexpectedDelta)
    ∧ (∀ m, ySizeEntries m ≤ N →
        createLocalComponentBySharedComponent reg m ≠ Except.error CErr.unexpectedDelta)
    ∧ (∀ ds slot, ySizeDActs ds ≤ N → (∀ a ∈ ds, nonInsertion a = false) →
        applyDelta reg slot ds ≠ Except.error CErr.unexpectedDelta) := by
  intro N
  induction N using Nat.strong_induction_on with
  | _ N IH =>
  refine ⟨?_, ?_, ?_, ?_, ?_, ?_⟩
  · intro v hv
    cases v with
    | ymap es =>
      simp only [createLocalModelBySharedByModel]
      cases hm : createLocalMapBySharedMap reg es with
      | ok l => simp
      | error e =>
        simp only [ySizeVal] at hv
        have h := (IH (N - 1) (by omega)).2.1 es (by omega)
        rw [hm] at h
        simpa using h
    | yarr xs =>
      simp only [createLocalModelBySharedByModel]
      cases hm : createLocalArrayBySharedArray reg xs with
      | ok l => simp
      | error e =>
        simp only [ySizeVal] at hv
        have h := (IH (N - 1) (by omega)).2.2.1 xs (by omega)
        rw [hm] at h
        simpa using h
    | ytext t =>
      simp only [createLocalModelBySharedByModel]
      cases hm : createLocalSlotBySharedSlot reg t with
      | ok l => simp
      | error e =>
        simp only [ySizeVal] at hv
        have h := (IH (N - 1) (by omega)).2.2.2.1 t (by omega)
        rw [hm] at h
        simpa using h
    | yprim p => simp [createLocalModelBySharedByModel]
  · intro es hes
    cases es with
    | nil => simp [createLocalMapBySharedMap]
    | cons kv rest =>
      obtain ⟨k, v⟩ := kv
      simp only [createLocalMapBySharedMap]
      simp only [ySizeEntries] at hes
      cases hv : createLocalModelBySharedByModel reg v with
      | error e =>
        have h := (IH (N - 1) (by omega)).1 v (by omega)
        rw [hv] at h
        simpa using h
      | ok lv =>
        cases hrest : createLocalMapBySharedMap reg rest with
        | error e =>
          have h := (IH (N - 1) (by omega)).2.1 rest (by omega)
          rw [hrest] at h
          simpa using h
        | ok lrest => simp
  · intro xs hxs
    cases xs with
    | nil => simp [createLocalArrayBySharedArray]
    | cons v rest =>
      simp only [createLocalArrayBySharedArray]
      simp only [ySizeArr] at hxs
      cases hv : createLocalModelBySharedByModel reg v with
      | error e =>
        have h := (IH (N - 1) (by omega)).1 v (by omega)
        rw [hv] at h
        simpa using h
      | ok lv =>
        cases hrest : createLocalArrayBySharedArray reg rest with
        | error e =>
          have h := (IH (N - 1) (by omega)).2.2.1 rest (by omega)
          rw [hrest] at h
          simpa using h
        | ok lrest => simp
  · intro t ht
    obtain ⟨yattrs, content⟩ := t
    simp only [createLocalSlotBySharedSlot]
    simp only [ySizeText] at ht
    have hsz : ySizeDActs (yToDelta content) ≤ N - 1 := by
      have := ySizeDActs_yToDelta_le content
      omega
    exact (IH (N - 1) (by omega)).2.2.2.2.2 (yToDelta content) _ hsz
      (yToDelta_insertions content)
  · intro m hm
    simp only [createLocalComponentBySharedComponent]
    split
    · rename_i componentName sharedState h1 h2
      have hv2 := ySizeVal_lookup_le _ _ _ h2
      simp only [ySizeVal] at hv2
      have hsz : ySizeEntries sharedState ≤ N - 1 := by omega
      by_cases hf : componentName ∈ reg.factories
      · cases hst : createLocalMapBySharedMap reg sharedState with
        | error e =>
          have h := (IH (N - 1) (by omega)).2.1 sharedState hsz
          rw [hst] at h
          simp [hf, hst]
          simpa using h
        | ok st2 => simp [hf, hst]
      · simp [hf]
    · simp
  · intro ds
    induction ds with
    | nil =>
      intro slot _ _
      rw [applyDelta]
      simp
    | cons d rest ihd =>
      intro slot hds hins
      cases d with
      | insertText s a =>
        simp only [ySizeDActs, ySizeDAct] at hds
        rw [applyDelta]
        exact ihd _ (by omega) (fun x hx => hins x (List.mem_cons_of_mem _ hx))
      | insertEmbed m a =>
        simp only [ySizeDActs, ySizeDAct] at hds
        rw [applyDelta]
        cases hc : createLocalComponentBySharedComponent reg m with
        | error e =>
          have h := (IH (N - 1) (by omega)).2.2.2.2.1 m (by omega)
          rw [hc] at h
          simpa using h
        | ok comp =>
          exact ihd _ (by omega) (fun x hx => hins x (List.mem_cons_of_mem _ hx))
      | retainD n =>
        have := hins (YDAction.retainD n) (List.mem_cons_self _ _)
        simp [nonInsertion] at this
      | deleteD n =>
        have := hins (YDAction.deleteD n) (List.mem_cons_self _ _)
        simp [nonInsertion] at this

/-- C9.  Materializing a local slot from shared attributed text rejects
non-insertion delta entries: a delta containing a non-insertion makes the
reconstruction fail with an error (with the `unexpected delta action` error
exactly when the entries before the offending one are plain text
insertions), and a delta (or a whole well-typed shared text, whose delta is
always insert-only) consisting only of insertions never raises the
`unexpected delta action` error. -/
theorem slot_delta_rejects_non_insertions (reg : Reg) (slot : LSlot)
    (delta : List YDAction) (pre post : List YDAction) (bad : YDAction) :
    ((∃ a ∈ delta, nonInsertion a = true) →
      ∃ e, applyDelta reg slot delta = Except.error e)
  ∧ ((∀ a ∈ pre, ∃ s attrs, a = YDAction.insertText s attrs) →
      nonInsertion bad = true →
      applyDelta reg slot (pre ++ bad :: post) = Except.error CErr.unexpectedDelta)
  ∧ ((∀ a ∈ delta, nonInsertion a = false) →
      applyDelta reg slot delta ≠ Except.error CErr.unexpectedDelta)
  ∧ (∀ t : YTextV, createLocalSlotBySharedSlot reg t
      ≠ Except.error CErr.unexpectedDelta) := by
  refine ⟨applyDelta_error_of_nonInsertion reg delta slot,
          applyDelta_unexpected_of_prefix reg pre bad post slot, ?_, ?_⟩
  · intro hall
    exact (no_unexpectedDelta_aux reg (ySizeDActs delta)).2.2.2.2.2 delta slot le_rfl hall
  · intro t
    exact (no_unexpectedDelta_aux reg (ySizeText t)).2.2.2.1 t le_rfl

/-- Witness for C9: a delta whose sole entry is a retain makes the slot
reconstruction loop fail with the `unexpected delta action` error. -/
theorem slot_delta_rejects_non_insertions_witness :
    applyDelta ⟨[], [], []⟩ (LSlot.mk [] [] []) [YDAction.retainD 1]
      = Except.error CErr.unexpectedDelta :=
  (slot_delta_rejects_non_insertions ⟨[], [], []⟩ (LSlot.mk [] [] []) []
      [] [] (YDAction.retainD 1)).2.1 (by simp) rfl

/-! ## Round trip local → shared → local (C1) -/

theorem insertYUnits_at_length (acc us : List YUnit) :
    insertYUnits acc acc.length us = acc ++ us := by
  simp [insertYUnits]

theorem buildSharedContent_eq (runs : List LRun) :
    ∀ acc : List YUnit, buildSharedContent runs acc acc.length = acc ++ unitsOfRuns runs := by
  induction runs with
  | nil => intro acc; simp [buildSharedContent, unitsOfRuns]
  | cons r rest ih =>
    intro acc
    cases r with
    | text s f =>
      simp only [buildSharedContent, insertYUnits_at_length]
      have hlen : (acc ++ s.data.map (fun c => YUnit.ch c f)).length
          = acc.length + s.length := by
        rw [List.length_append, List.length_map, strLenData]
      rw [← hlen, ih]
      simp [unitsOfRuns, runYUnits, List.append_assoc]
    | embed c f =>
      simp only [buildSharedContent, insertYUnits_at_length]
      have hlen : (acc ++ [YUnit.emb (createSharedComponentByLocalComponent c) f]).length
          = acc.length + 1 := by
        simp
      rw [← hlen, ih]
      simp [unitsOfRuns, runYUnits, List.append_assoc]

theorem buildSharedContent_nil (runs : List LRun) :
    buildSharedContent runs [] 0 = unitsOfRuns runs := by
  have h := buildSharedContent_eq runs []
  simpa using h

theorem string_mk_data (s : String) : String.mk s.data = s := rfl

theorem string_data_ne_nil (s : String) (h : s ≠ "") : s.data ≠ [] := by
  intro hd
  apply h
  cases s
  simp only at hd
  subst hd
  rfl

theorem yToDelta_chars (f : List (String × Prim)) :
    ∀ (cs : List Char) (tail : List YUnit), cs ≠ [] →
      headNotMerge (attrsOfFmts f) (yToDelta tail) →
      yToDelta (cs.map (fun c => YUnit.ch c f) ++ tail)
        = YDAction.insertText (String.mk cs) (attrsOfFmts f) :: yToDelta tail := by
  intro cs
  induction cs with
  | nil => intro tail h; exact absurd rfl h
  | cons c cs ih =>
    intro tail hne hmerge
    by_cases hcs : cs = []
    · subst hcs
      simp only [List.map_cons, List.map_nil, List.nil_append, List.cons_append]
      simp only [yToDelta]
      cases ht : yToDelta tail with
      | nil => rfl
      | cons d ds =>
        cases d with
        | insertText s a2 =>
          rw [ht] at hmerge
          simp only [headNotMerge] at hmerge
          dsimp only
          rw [if_neg hmerge]
        | insertEmbed m a2 => rfl
        | retainD n => rfl
        | deleteD n => rfl
    · have ihh := ih tail hcs hmerge
      simp only [List.map_cons, List.cons_append, yToDelta, List.append_eq]
      rw [ihh]
      dsimp only
      rw [if_pos rfl]

theorem normalizedRuns_rest (r : LRun) (rest : List LRun)
    (h : normalizedRuns (r :: rest) = true) : normalizedRuns rest = true := by
  cases r with
  | text s f =>
    cases rest with
    | nil => rfl
    | cons r2 rest2 =>
      cases r2 with
      | text s2 f2 =>
        simp only [normalizedRuns, Bool.and_eq_true] at h
        exact h.2
      | embed c2 f2 =>
        simpa only [normalizedRuns] using h
  | embed c f =>
    simpa only [normalizedRuns] using h

theorem yToDelta_unitsOfRuns (reg : Reg) :
    ∀ runs : List LRun, wfRuns reg runs = true → normalizedRuns runs = true →
      yToDelta (unitsOfRuns runs) = deltaOfRuns runs := by
  intro runs
  induction runs with
  | nil => intro _ _; rfl
  | cons r rest ih =>
    intro hwf hnorm
    have hnr := normalizedRuns_rest r rest hnorm
    cases r with
    | text s f =>
      simp only [wfRuns, Bool.and_eq_true] at hwf
      obtain ⟨⟨hs, _⟩, hrest⟩ := hwf
      have hcs : s.data ≠ [] := string_data_ne_nil s (by simpa using hs)
      have hmerge : headNotMerge (attrsOfFmts f) (yToDelta (unitsOfRuns rest)) := by
        rw [ih hrest hnr]
        cases rest with
        | nil => trivial
        | cons r2 rest2 =>
          cases r2 with
          | text s2 f2 =>
            rw [deltaOfRuns]
            simp only [headNotMerge]
            simp only [normalizedRuns, Bool.and_eq_true, bne_iff_ne, ne_eq] at hnorm
            intro hcontra
            exact hnorm.1 hcontra.symm
          | embed c2 f2 =>
            rw [deltaOfRuns]
            simp only [headNotMerge]
      have h := yToDelta_chars f s.data (unitsOfRuns rest) hcs hmerge
      simp only [unitsOfRuns, runYUnits]
      rw [h, string_mk_data, ih hrest hnr]
      rfl
    | embed c f =>
      simp only [wfRuns, Bool.and_eq_true] at hwf
      obtain ⟨_, hrest⟩ := hwf
      simp only [unitsOfRuns, runYUnits, List.singleton_append, yToDelta, List.append_eq,
        List.nil_append]
      rw [ih hrest hnr]
      rfl

theorem schemaOfShared_eval (sch : List Nat) (rest : List (String × YAttr)) :
    schemaOfShared (("__schema__", YAttr.schema sch) :: rest) = sch := by
  simp [schemaOfShared, lookupYAttr, List.find?]

theorem localAttrsOfShared_eval (reg : Reg) (sch : List Nat)
    (attrs : List (String × Prim))
    (hall : ∀ kv ∈ attrs, reg.attributes.contains kv.1 = true) :
    localAttrsOfShared reg (("__schema__", YAttr.schema sch)
        :: attrs.map (fun kv => (kv.1, YAttr.prim kv.2))) = attrs := by
  simp only [localAttrsOfShared, List.filterMap_cons]
  try dsimp only
  rw [List.filterMap_map]
  induction attrs with
  | nil => rfl
  | cons kv rest ih =>
    have hkv := hall kv (List.mem_cons_self _ _)
    rw [List.filterMap_cons]
    try dsimp only [Function.comp]
    rw [if_pos hkv]
    rw [ih (fun x hx => hall x (List.mem_cons_of_mem _ hx))]

theorem remoteFormatsToLocal_attrsOfFmts (reg : Reg) (f : List (String × Prim))
    (hall : ∀ kv ∈ f, reg.formatters.contains kv.1 = true) :
    remoteFormatsToLocal reg.formatters (attrsOfFmts f) = f := by
  by_cases hf : f = []
  · subst hf; rfl
  · rw [attrsOfFmts, if_neg hf]
    simp only [remoteFormatsToLocal]
    exact List.filter_eq_self.mpr (fun kv hkv => hall kv hkv)

theorem lookupYVal_pair_name (v1 v2 : YVal) :
    lookupYVal "name" [("name", v1), ("state", v2)] = some v1 := rfl

theorem lookupYVal_pair_state (v1 v2 : YVal) :
    lookupYVal "state" [("name", v1), ("state", v2)] = some v2 := rfl

theorem materializer_roundtrip_aux (reg : Reg) :
    ∀ N : Nat,
      (∀ v, lSizeVal v ≤ N → wfVal reg v = true →
        createLocalModelBySharedByModel reg (createSharedModelByLocalModel v)
          = Except.ok v)
    ∧ (∀ es, lSizeEntries es ≤ N → wfEntries reg es = true →
        createLocalMapBySharedMap reg (createSharedMapByLocalMap es) = Except.ok es)
    ∧ (∀ xs, lSizeArr xs ≤ N → wfArr reg xs = true →
        createLocalArrayBySharedArray reg (createSharedArrayByLocalArray xs)
          = Except.ok xs)
    ∧ (∀ sl, lSizeSlot sl ≤ N → wfSlot reg sl = true →
        createLocalSlotBySharedSlot reg (createSharedSlotByLocalSlot sl) = Except.ok sl)
    ∧ (∀ c, lSizeComp c ≤ N → wfComp reg c = true →
        createLocalComponentBySharedComponent reg
          (createSharedComponentByLocalComponent c) = Except.ok c)
    ∧ (∀ runs sch lattrs, lSizeRuns runs ≤ N → wfRuns reg runs = true →
        ∀ acc, applyDelta reg (LSlot.mk sch lattrs acc) (deltaOfRuns runs)
          = Except.ok (LSlot.mk sch lattrs (acc ++ runs))) := by
  intro N
  induction N using Nat.strong_induction_on with
  | _ N IH =>
  refine ⟨?_, ?_, ?_, ?_, ?_, ?_⟩
  · intro v hv hwf
    cases v with
    | lmap es =>
      simp only [lSizeVal] at hv
      simp only [wfVal, Bool.and_eq_true] at hwf
      simp only [createSharedModelByLocalModel, createLocalModelBySharedByModel]
      rw [(IH (N - 1) (by omega)).2.1 es (by omega) hwf.2]
    | larr xs =>
      simp only [lSizeVal] at hv
      simp only [wfVal] at hwf
      simp only [createSharedModelByLocalModel, createLocalModelBySharedByModel]
      rw [(IH (N - 1) (by omega)).2.2.1 xs (by omega) hwf]
    | lslot sl =>
      simp only [lSizeVal] at hv
      simp only [wfVal] at hwf
      simp only [createSharedModelByLocalModel, createLocalModelBySharedByModel]
      rw [(IH (N - 1) (by omega)).2.2.2.1 sl (by omega) hwf]
    | lprim p =>
      simp [createSharedModelByLocalModel, createLocalModelBySharedByModel]
  · intro es hes hwf
    cases es with
    | nil => simp [createSharedMapByLocalMap, createLocalMapBySharedMap]
    | cons kv rest =>
      obtain ⟨k, v⟩ := kv
      simp only [lSizeEntries] at hes
      simp only [wfEntries, Bool.and_eq_true] at hwf
      simp only [createSharedMapByLocalMap, createLocalMapBySharedMap]
      rw [(IH (N - 1) (by omega)).1 v (by omega) hwf.1]
      rw [(IH (N - 1) (by omega)).2.1 rest (by omega) hwf.2]
  · intro xs hxs hwf
    cases xs with
    | nil => simp [createSharedArrayByLocalArray, createLocalArrayBySharedArray]
    | cons v rest =>
      simp only [lSizeArr] at hxs
      simp only [wfArr, Bool.and_eq_true] at hwf
      simp only [createSharedArrayByLocalArray, createLocalArrayBySharedArray]
      rw [(IH (N - 1) (by omega)).1 v (by omega) hwf.1]
      rw [(IH (N - 1) (by omega)).2.2.1 rest (by omega) hwf.2]
  · intro sl hsl hwf
    obtain ⟨sch, attrs, content⟩ := sl
    simp only [lSizeSlot] at hsl
    simp only [wfSlot, Bool.and_eq_true] at hwf
    obtain ⟨⟨⟨_, hall⟩, hnorm⟩, hruns⟩ := hwf
    have hall2 : ∀ kv ∈ attrs, reg.attributes.contains kv.1 = true := by
      rw [List.all_eq_true] at hall
      intro kv hkv
      have := hall kv hkv
      rw [Bool.and_eq_true] at this
      exact this.1
    simp only [createSharedSlotByLocalSlot]
    rw [buildSharedContent_nil]
    simp only [createLocalSlotBySharedSlot]
    rw [yToDelta_unitsOfRuns reg content hruns hnorm]
    rw [schemaOfShared_eval]
    rw [localAttrsOfShared_eval reg sch attrs hall2]
    rw [(IH (N - 1) (by omega)).2.2.2.2.2 content sch attrs (by omega) hruns []]
    simp
  · intro c hc hwf
    obtain ⟨nm, state⟩ := c
    simp only [lSizeComp] at hc
    simp only [wfComp, Bool.and_eq_true] at hwf
    obtain ⟨⟨hfac, _⟩, hstate⟩ := hwf
    simp only [createSharedComponentByLocalComponent]
    simp only [createLocalComponentBySharedComponent]
    split
    · rename_i componentName sharedState h1 h2
      rw [lookupYVal_pair_name] at h1
      rw [lookupYVal_pair_state] at h2
      have hnm : componentName = nm := by
        injection h1 with h1a
        injection h1a with h1b
        injection h1b with h1c
        exact h1c.symm
      have hst : sharedState = createSharedMapByLocalMap state := by
        injection h2 with h2a
        injection h2a with h2b
        exact h2b.symm
      subst hnm
      subst hst
      simp only [hfac, eq_self_iff_true, if_true]
      rw [(IH (N - 1) (by omega)).2.1 state (by omega) hstate]
    · rename_i hno
      exact (hno nm (createSharedMapByLocalMap state)
        (lookupYVal_pair_name _ _) (lookupYVal_pair_state _ _)).elim
  · intro runs sch lattrs
    induction runs with
    | nil =>
      intro _ _ acc
      rw [deltaOfRuns, applyDelta]
      simp
    | cons r rest ihr =>
      intro hsz hwf acc
      cases r with
      | text s f =>
        simp only [lSizeRuns] at hsz
        simp only [wfRuns, Bool.and_eq_true] at hwf
        obtain ⟨⟨_, hfmts⟩, hrest⟩ := hwf
        have hallf : ∀ kv ∈ f, reg.formatters.contains kv.1 = true := by
          simp only [wfFmts, Bool.and_eq_true, List.all_eq_true] at hfmts
          exact fun kv hkv => hfmts.2 kv hkv
        rw [deltaOfRuns, applyDelta]
        rw [remoteFormatsToLocal_attrsOfFmts reg f hallf]
        have hslot : slotInsertText (LSlot.mk sch lattrs acc) s f
            = LSlot.mk sch lattrs (acc ++ [LRun.text s f]) := rfl
        rw [hslot]
        rw [ihr (by omega) hrest (acc ++ [LRun.text s f])]
        simp [List.append_assoc]
      | embed cc f =>
        simp only [lSizeRuns] at hsz
        simp only [wfRuns, Bool.and_eq_true] at hwf
        obtain ⟨⟨hfmts, hcomp⟩, hrest⟩ := hwf
        have hallf : ∀ kv ∈ f, reg.formatters.contains kv.1 = true := by
          simp only [wfFmts, Bool.and_eq_true, List.all_eq_true] at hfmts
          exact fun kv hkv => hfmts.2 kv hkv
        rw [deltaOfRuns, applyDelta]
        rw [(IH (N - 1) (by omega)).2.2.2.2.1 cc (by omega) hcomp]
        dsimp only
        rw [remoteFormatsToLocal_attrsOfFmts reg f hallf]
        have hslot : slotInsertEmbed (LSlot.mk sch lattrs acc) cc f
            = LSlot.mk sch lattrs (acc ++ [LRun.embed cc f]) := rfl
        rw [hslot]
        rw [ihr (by omega) hrest (acc ++ [LRun.embed cc f])]
        simp [List.append_assoc]

/-- C1.  For every well-formed local subtree — content runs with registered,
duplicate-free formats, registered slot-level attributes distinct from the
reserved schema key, normalized runs, and nested components with registered
factory names and duplicate-free state maps — converting a slot with
`createSharedSlotByLocalSlot` (or a component with
`createSharedComponentByLocalComponent`) and converting the result back with
`createLocalSlotBySharedSlot` (resp.
`createLocalComponentBySharedComponent`) reproduces the original tree
exactly: content sequence, per-range formatting, slot attributes and nested
component structure included. -/
theorem local_shared_roundtrip (reg : Reg) (sl : LSlot) (c : LComp)
    (hs : wfSlot reg sl = true) (hc : wfComp reg c = true) :
    createLocalSlotBySharedSlot reg (createSharedSlotByLocalSlot sl) = Except.ok sl
  ∧ createLocalComponentBySharedComponent reg (createSharedComponentByLocalComponent c)
      = Except.ok c :=
  ⟨(materializer_roundtrip_aux reg (lSizeSlot sl)).2.2.2.1 sl le_rfl hs,
   (materializer_roundtrip_aux reg (lSizeComp c)).2.2.2.2.1 c le_rfl hc⟩

/-- Witness for C1: a concrete slot holding formatted text and an embedded
component whose state map nests another slot, an array and a primitive,
round-trips to itself. -/
theorem local_shared_roundtrip_witness :
    createLocalSlotBySharedSlot ⟨["bold"], ["align"], ["para"]⟩
        (createSharedSlotByLocalSlot
          (LSlot.mk [1] [("align", Prim.str "left")]
            [LRun.text "hi" [("bold", Prim.bool true)],
             LRun.embed (LComp.mk "para"
               [("title", LVal.lprim (Prim.str "t")),
                ("body", LVal.lslot (LSlot.mk [] [] [LRun.text "y" []])),
                ("items", LVal.larr [LVal.lprim (Prim.num 3)])]) [],
             LRun.text "z" []]))
      = Except.ok
          (LSlot.mk [1] [("align", Prim.str "left")]
            [LRun.text "hi" [("bold", Prim.bool true)],
             LRun.embed (LComp.mk "para"
               [("title", LVal.lprim (Prim.str "t")),
                ("body", LVal.lslot (LSlot.mk [] [] [LRun.text "y" []])),
                ("items", LVal.larr [LVal.lprim (Prim.num 3)])]) [],
             LRun.text "z" []]) :=
  (local_shared_roundtrip ⟨["bold"], ["align"], ["para"]⟩
      (LSlot.mk [1] [("align", Prim.str "left")]
        [LRun.text "hi" [("bold", Prim.bool true)],
         LRun.embed (LComp.mk "para"
           [("title", LVal.lprim (Prim.str "t")),
            ("body", LVal.lslot (LSlot.mk [] [] [LRun.text "y" []])),
            ("items", LVal.larr [LVal.lprim (Prim.num 3)])]) [],
         LRun.text "z" []])
      (LComp.mk "para" [("title", LVal.lprim (Prim.str "t"))])
      (by decide) (by decide)).1

end Collab
